import Mathlib

/-!
Shallow embedding of the `k-events` in-process event emitter (src/index.js).

Modelling conventions:
* JavaScript values that can appear as event names or payloads are modelled by
  the inductive type `JSVal`; listeners and producers are identified by their
  reference identity, modelled as `Nat` ids.
* A JS `Map` is modelled as an association list (`mapGet` / `mapSet` /
  `mapDelete`); a JS `Set` (insertion ordered, duplicate free) is modelled as a
  `List Nat` maintained by `setAdd` / `setDelete`.
* The hidden per-instance maps (`eventsMap`, `anyMap`, `producersMap`) become
  the fields of `EmitterState`; each producer closure's mutable variables
  (`queue`, `isFinished`) become a `Cell` stored in `EmitterState.cells`.
* Listener bodies are arbitrary effectful code; they are modelled by a
  `Behavior` that may mutate the emitter state, an external world `σ`
  (captured variables of the closure, e.g. a promise resolver), and may throw.
  Behaviors model the synchronous portion of a listener body.  For
  synchronous listener bodies, `emit`'s eagerly evaluated
  `Promise.all([...map])` and `emitSerial`'s awaited `for` loop both invoke the
  snapshotted listeners sequentially in snapshot order, re-checking liveness
  just before each call and stopping at the first synchronous throw, so both
  share `dispatchBody`; `emit` additionally feeds the stream producers first.
-/

namespace KEvents

/-- JavaScript values as far as this library can observe them: event names,
payloads, and the argument shapes of the public API. -/
inductive JSVal where
  | str (s : String)
  | sym (id : Nat)
  | num (n : Int)
  | boolV (b : Bool)
  | undef
  | nullV
  | obj (id : Nat)
deriving DecidableEq

/-- `isEventKeyType` from src/index.js: accepts strings, symbols and numbers. -/
def isEventKeyType : JSVal → Bool
  | JSVal.str _ => true
  | JSVal.sym _ => true
  | JSVal.num _ => true
  | _ => false

/-- The two `TypeError`s thrown by argument validation plus an error thrown by
a listener body (identified by a numeric code). -/
inductive JSError where
  | invalidListener
  | invalidEventKey
  | thrown (e : Nat)
deriving DecidableEq

/-- The `eventName | eventName[]` argument accepted by the public methods;
`Array.isArray(eventNames) ? eventNames : [eventNames]` becomes `toArray`. -/
inductive EventNamesArg where
  | single (v : JSVal)
  | array (vs : List JSVal)
deriving DecidableEq

def toArray : EventNamesArg → List JSVal
  | EventNamesArg.single v => [v]
  | EventNamesArg.array vs => vs

section AssocMap

variable {α : Type} {β : Type} [DecidableEq α]

/-- `Map.prototype.get` on an association list. -/
def mapGet : List (α × β) → α → Option β
  | [], _ => none
  | (k, v) :: rest, key => if k = key then some v else mapGet rest key

/-- `Map.prototype.set`: replace the value at the key or append a new entry. -/
def mapSet : List (α × β) → α → β → List (α × β)
  | [], key, v => [(key, v)]
  | (k, w) :: rest, key, v =>
    if k = key then (k, v) :: rest else (k, w) :: mapSet rest key v

/-- `Map.prototype.delete`. -/
def mapDelete : List (α × β) → α → List (α × β)
  | [], _ => []
  | (k, w) :: rest, key => if k = key then rest else (k, w) :: mapDelete rest key

end AssocMap

/-- `Set.prototype.add`: idempotent, keeps insertion order. -/
def setAdd (s : List Nat) (x : Nat) : List Nat :=
  if x ∈ s then s else s ++ [x]

/-- `Set.prototype.delete`. -/
def setDelete (s : List Nat) (x : Nat) : List Nat :=
  s.filter (fun y => y ≠ x)

/-- Keys of the `producersMap` of an instance: each valid event name, plus the
distinguished `anyProducer` symbol backing the wildcard stream channel. -/
inductive ProdKey where
  | key (k : JSVal)
  | anyProducer
deriving DecidableEq

/-- Key lookup used by `getEventProducers`:
`isEventKeyType(eventName) ? eventName : anyProducer`. -/
def prodKeyOf (eventName : JSVal) : ProdKey :=
  if isEventKeyType eventName then ProdKey.key eventName else ProdKey.anyProducer

/-- A buffered item of a producer: per-key producers buffer the raw payload,
the wildcard producer buffers the `(eventName, eventData)` pair (the awaited
`Promise.all([eventName, eventData])`). -/
inductive Item where
  | single (d : JSVal)
  | pair (k d : JSVal)
deriving DecidableEq

/-- The mutable closure state of one producer created by `iterator`:
`queue` (`none` models `queue = undefined` after exhaustion/return) and
`isFinished`. -/
structure Cell where
  queue : Option (List Item)
  isFinished : Bool
deriving DecidableEq

/-- The whole hidden state of one emitter instance: `eventsMap.get(this)`,
`anyMap.get(this)`, `producersMap.get(this)` (producer ids per key), and the
closure state of every producer ever created (`cells`). -/
structure EmitterState where
  events : List (JSVal × List Nat)
  anySet : List Nat
  producers : List (ProdKey × List Nat)
  cells : List (Nat × Cell)
deriving DecidableEq

/-- The constructor: empty registries, with the `anyProducer` entry pre-seeded
to an empty set. -/
def initState : EmitterState :=
  { events := [], anySet := [], producers := [(ProdKey.anyProducer, [])], cells := [] }

/-- `getListeners` from src/index.js (`undefined` becomes `none`). -/
def getListeners (st : EmitterState) (eventName : JSVal) : Option (List Nat) :=
  mapGet st.events eventName

/-- The snapshot `[...(getListeners(this, eventName) ?? new Set())]`, also used
for the `listeners.has(listener)` live check. -/
def liveListeners (st : EmitterState) (eventName : JSVal) : List Nat :=
  (getListeners st eventName).getD []

/-- Loop body of `on` for one event name: lazily create the listener set, then
`set.add(listener)`. -/
def mapAddElem [DecidableEq α] (m : List (α × List Nat)) (k : α) (x : Nat) :
    List (α × List Nat) :=
  match mapGet m k with
  | some s => mapSet m k (setAdd s x)
  | none => mapSet m k (setAdd [] x)

/-- Loop body of `off` / `return` for one key: if a set exists, delete the
element and prune the entry when the set became empty. -/
def mapRemoveElem [DecidableEq α] (m : List (α × List Nat)) (k : α) (x : Nat) :
    List (α × List Nat) :=
  match mapGet m k with
  | none => m
  | some s =>
    if setDelete s x = [] then mapDelete m k else mapSet m k (setDelete s x)

def addListener (st : EmitterState) (eventName : JSVal) (listener : Nat) :
    EmitterState :=
  { st with events := mapAddElem st.events eventName listener }

def removeListener (st : EmitterState) (eventName : JSVal) (listener : Nat) :
    EmitterState :=
  { st with events := mapRemoveElem st.events eventName listener }

/-- The `for (const eventName of eventNames)` loop of `on`: each name is
validated just before the mutation for that name, so mutations for earlier
names survive a later validation failure. -/
def onLoop : EmitterState → List JSVal → Nat → EmitterState × Option JSError
  | st, [], _ => (st, none)
  | st, k :: rest, listener =>
    if isEventKeyType k then onLoop (addListener st k listener) rest listener
    else (st, some JSError.invalidEventKey)

/-- The unsubscribe closure `this.off.bind(this, eventNames, listener)`
returned by `on`: it captures the normalized name array and the listener. -/
structure Handle where
  names : List JSVal
  listener : Nat
deriving DecidableEq

/-- `kEvents.on` (the `listener` argument is a function reference, so
`assertListener` passes). -/
def on' (st : EmitterState) (arg : EventNamesArg) (listener : Nat) :
    EmitterState × Except JSError Handle :=
  let names := toArray arg
  match onLoop st names listener with
  | (st1, none) => (st1, Except.ok { names := names, listener := listener })
  | (st1, some e) => (st1, Except.error e)

/-- The `for (const eventName of eventNames)` loop of `off`; like `onLoop`,
validation of each name is interleaved with the mutation for that name. -/
def offLoop : EmitterState → List JSVal → Nat → EmitterState × Option JSError
  | st, [], _ => (st, none)
  | st, k :: rest, listener =>
    if isEventKeyType k then offLoop (removeListener st k listener) rest listener
    else (st, some JSError.invalidEventKey)

/-- `kEvents.off`. -/
def off (st : EmitterState) (arg : EventNamesArg) (listener : Nat) :
    EmitterState × Option JSError :=
  offLoop st (toArray arg) listener

/-- Invoking the unsubscribe closure returned by `on`. -/
def runHandle (st : EmitterState) (h : Handle) : EmitterState × Option JSError :=
  offLoop st h.names h.listener

/-- `kEvents.onAny`. -/
def onAny (st : EmitterState) (listener : Nat) : EmitterState :=
  { st with anySet := setAdd st.anySet listener }

/-- `kEvents.offAny`. -/
def offAny (st : EmitterState) (listener : Nat) : EmitterState :=
  { st with anySet := setDelete st.anySet listener }

/-- The `for` loop of `clearListeners`: a valid event name only empties the
named set in place (`set.clear()`, the entry is retained); any other value
(in particular `undefined`, the no-argument call) clears and deletes every
entry. -/
def clearLoop : EmitterState → List JSVal → EmitterState
  | st, [] => st
  | st, k :: rest =>
    if isEventKeyType k then
      match getListeners st k with
      | some _ => clearLoop { st with events := mapSet st.events k [] } rest
      | none => clearLoop st rest
    else clearLoop { st with events := [] } rest

/-- `kEvents.clearListeners` with an explicit argument. -/
def clearListeners (st : EmitterState) (arg : EventNamesArg) : EmitterState :=
  clearLoop st (toArray arg)

/-- `kEvents.clearListeners()` called with no argument: `eventNames` is
`undefined`, which is normalized to `[undefined]`. -/
def clearListenersNoArg (st : EmitterState) : EmitterState :=
  clearLoop st [JSVal.undef]

/-- `producer.enqueue(item)`: `queue.push(item)` on the closure variable. -/
def cellEnqueue (c : Cell) (item : Item) : Cell :=
  { c with queue := c.queue.map (fun q => q ++ [item]) }

/-- `for (const producer of set) producer.enqueue(item)`. -/
def enqueueAll : List (Nat × Cell) → List Nat → Item → List (Nat × Cell)
  | cells, [], _ => cells
  | cells, p :: rest, item =>
    match mapGet cells p with
    | some c => enqueueAll (mapSet cells p (cellEnqueue c item)) rest item
    | none => enqueueAll cells rest item

/-- `enqueueProducers` from src/index.js: producers registered under the event
name receive the raw payload, producers registered under `anyProducer` receive
the `(eventName, eventData)` pair. -/
def enqueueProducers (st : EmitterState) (eventName eventData : JSVal) :
    EmitterState :=
  let st1 :=
    match mapGet st.producers (ProdKey.key eventName) with
    | some pids => { st with cells := enqueueAll st.cells pids (Item.single eventData) }
    | none => st
  match mapGet st1.producers ProdKey.anyProducer with
  | some pids =>
      { st1 with cells := enqueueAll st1.cells pids (Item.pair eventName eventData) }
  | none => st1

/-- The async-iterator object built by `iterator`: it captures the normalized
event names and (the identity of) its producer closure. -/
structure IterHandle where
  names : List JSVal
  pid : Nat
deriving DecidableEq

/-- A producer id unused by any existing cell. -/
def freshPid (st : EmitterState) : Nat :=
  (st.cells.map Prod.fst).foldr max 0 + 1

/-- Registration half of `iterator`: add the producer to the set of each
requested name (creating the set when absent) via `getEventProducers`. -/
def addProducer (st : EmitterState) (eventName : JSVal) (pid : Nat) :
    EmitterState :=
  { st with producers := mapAddElem st.producers (prodKeyOf eventName) pid }

def iteratorRegister (st : EmitterState) (names : List JSVal) (pid : Nat) :
    EmitterState :=
  let st1 := names.foldl (fun s n => addProducer s n pid) st
  { st1 with cells := mapSet st1.cells pid { queue := some [], isFinished := false } }

/-- `for (const eventName of eventNames) assertEventName(eventName)` inside
`kEvents.events`: here all names are validated before any mutation. -/
def eventsValidate : List JSVal → Option JSError
  | [] => none
  | k :: rest =>
    if isEventKeyType k then eventsValidate rest else some JSError.invalidEventKey

/-- `kEvents.events`. -/
def events (st : EmitterState) (arg : EventNamesArg) :
    EmitterState × Except JSError IterHandle :=
  let names := toArray arg
  match eventsValidate names with
  | some e => (st, Except.error e)
  | none =>
    let pid := freshPid st
    (iteratorRegister st names pid, Except.ok { names := names, pid := pid })

/-- Result of one `next()` call: either it settles with an iterator result, or
it suspends waiting for `flush` (empty queue, producer not finished). -/
inductive NextOutcome where
  | ready (done : Bool) (value : Option Item)
  | suspended
deriving DecidableEq

/-- The `next()` method of the iterator: `queue === undefined` means
exhausted; an empty queue of a finished producer becomes exhausted (the source
sets `queue = undefined` and recurses, which the model unfolds once); an empty
queue of a live producer suspends; otherwise the oldest item is dequeued. -/
def iterNext (st : EmitterState) (h : IterHandle) : EmitterState × NextOutcome :=
  match mapGet st.cells h.pid with
  | none => (st, NextOutcome.suspended)
  | some c =>
    match c.queue with
    | none => (st, NextOutcome.ready true none)
    | some [] =>
      if c.isFinished then
        ({ st with cells := mapSet st.cells h.pid { c with queue := none } },
          NextOutcome.ready true none)
      else (st, NextOutcome.suspended)
    | some (x :: xs) =>
      ({ st with cells := mapSet st.cells h.pid { c with queue := some xs } },
        NextOutcome.ready false (some x))

/-- Loop body of the iterator's `return()` for one event name: look up the
producer set via `getEventProducers`, delete the producer, prune an emptied
entry. -/
def removeProducer (st : EmitterState) (eventName : JSVal) (pid : Nat) :
    EmitterState :=
  { st with producers := mapRemoveElem st.producers (prodKeyOf eventName) pid }

def iterReturnLoop : EmitterState → List JSVal → Nat → EmitterState
  | st, [], _ => st
  | st, n :: rest, pid => iterReturnLoop (removeProducer st n pid) rest pid

/-- The `return()` method of the iterator: discard the buffer
(`queue = undefined`), then unregister the producer from every entry it was
added to. -/
def iterReturn (st : EmitterState) (h : IterHandle) : EmitterState :=
  let st1 :=
    match mapGet st.cells h.pid with
    | some c => { st with cells := mapSet st.cells h.pid { c with queue := none } }
    | none => st
  iterReturnLoop st1 h.names h.pid

/-- The argument a listener is called with: per-key listeners receive the
payload, wildcard listeners receive `(eventName, eventData)`. -/
inductive CallArg where
  | data (d : JSVal)
  | keyed (k d : JSVal)
deriving DecidableEq

/-- Result of running one listener body: the mutated emitter state, the
mutated external world, and optionally a thrown error code. -/
structure CallOut (σ : Type) where
  state : EmitterState
  ext : σ
  err : Option Nat

/-- The synchronous behavior of each listener id: listeners are arbitrary code
that may call back into the emitter (mutating `EmitterState`), update captured
external state `σ`, and throw. -/
def Behavior (σ : Type) :=
  Nat → CallArg → EmitterState → σ → CallOut σ

/-- Result of a dispatch (`emit` / `emitSerial`): final state, final external
world, the invocation log in invocation order, and the settled error. -/
structure DispatchOut (σ : Type) where
  state : EmitterState
  ext : σ
  calls : List (Nat × CallArg)
  err : Option JSError

/-- Traversal of the per-key snapshot: each snapshotted listener is re-checked
against the live registry (`listeners.has(listener)`) immediately before its
invocation and skipped when absent; a throw stops the traversal. -/
def invokeKeyLoop {σ : Type} (beh : Behavior σ) (eventName eventData : JSVal) :
    List Nat → EmitterState → σ → DispatchOut σ
  | [], st, s => ⟨st, s, [], none⟩
  | L :: rest, st, s =>
    if L ∈ liveListeners st eventName then
      let r := beh L (CallArg.data eventData) st s
      match r.err with
      | some e => ⟨r.state, r.ext, [(L, CallArg.data eventData)], some (JSError.thrown e)⟩
      | none =>
        let d := invokeKeyLoop beh eventName eventData rest r.state r.ext
        ⟨d.state, d.ext, (L, CallArg.data eventData) :: d.calls, d.err⟩
    else invokeKeyLoop beh eventName eventData rest st s

/-- Traversal of the wildcard snapshot, live-checked against `anyMap`. -/
def invokeAnyLoop {σ : Type} (beh : Behavior σ) (eventName eventData : JSVal) :
    List Nat → EmitterState → σ → DispatchOut σ
  | [], st, s => ⟨st, s, [], none⟩
  | L :: rest, st, s =>
    if L ∈ st.anySet then
      let r := beh L (CallArg.keyed eventName eventData) st s
      match r.err with
      | some e =>
        ⟨r.state, r.ext, [(L, CallArg.keyed eventName eventData)], some (JSError.thrown e)⟩
      | none =>
        let d := invokeAnyLoop beh eventName eventData rest r.state r.ext
        ⟨d.state, d.ext, (L, CallArg.keyed eventName eventData) :: d.calls, d.err⟩
    else invokeAnyLoop beh eventName eventData rest st s

/-- Shared dispatch core of `emit` and `emitSerial`: snapshot both lists, run
the per-key pass, and run the wildcard pass only when the first pass settled
without error. -/
def dispatchBody {σ : Type} (beh : Behavior σ) (st : EmitterState)
    (eventName eventData : JSVal) (s : σ) : DispatchOut σ :=
  let staticListeners := liveListeners st eventName
  let staticAnyListeners := st.anySet
  let d1 := invokeKeyLoop beh eventName eventData staticListeners st s
  match d1.err with
  | some _ => d1
  | none =>
    let d2 := invokeAnyLoop beh eventName eventData staticAnyListeners d1.state d1.ext
    ⟨d2.state, d2.ext, d1.calls ++ d2.calls, d2.err⟩

/-- `kEvents.emit`: validate the name, feed the stream producers, then
dispatch. -/
def emit {σ : Type} (beh : Behavior σ) (st : EmitterState)
    (eventName eventData : JSVal) (s : σ) : DispatchOut σ :=
  if isEventKeyType eventName then
    dispatchBody beh (enqueueProducers st eventName eventData) eventName eventData s
  else ⟨st, s, [], some JSError.invalidEventKey⟩

/-- `kEvents.emitSerial`: validate the name and dispatch; the stream producers
are never fed. -/
def emitSerial {σ : Type} (beh : Behavior σ) (st : EmitterState)
    (eventName eventData : JSVal) (s : σ) : DispatchOut σ :=
  if isEventKeyType eventName then dispatchBody beh st eventName eventData s
  else ⟨st, s, [], some JSError.invalidEventKey⟩

/-- `kEvents.once(eventNames)` registers a fresh listener closure via `on`;
the returned promise is modelled by an `Option JSVal` cell in the external
world. -/
def once (st : EmitterState) (arg : EventNamesArg) (listener : Nat) :
    EmitterState × Except JSError Handle :=
  on' st arg listener

def argPayload : CallArg → JSVal
  | CallArg.data d => d
  | CallArg.keyed _ d => d

/-- The listener closure registered by `once`:
`data => { off_(); resolve(data); }` — it unsubscribes itself from every name
and resolves the promise cell (a promise resolves at most once). -/
def onceBeh (names : List JSVal) (me : Nat) : Behavior (Option JSVal) :=
  fun L arg st s =>
    if L = me then
      { state := (offLoop st names me).1,
        ext := match s with
          | none => some (argPayload arg)
          | some v => some v,
        err := none }
    else { state := st, ext := s, err := none }

/-- A listener whose body does nothing. -/
def inertBeh : Behavior Unit :=
  fun _ _ st s => { state := st, ext := s, err := none }

/-- A listener environment where listener `a` reacts by unsubscribing
listener `b` from event `k` (`emitter.off(k, b)`) and every other listener is
inert. -/
def removerBeh (k : JSVal) (a b : Nat) : Behavior Unit :=
  fun L _ st s =>
    if L = a then { state := (offLoop st [k] b).1, ext := s, err := none }
    else { state := st, ext := s, err := none }

/-- A listener environment where listener `a` reacts by unsubscribing
listener `b` from the wildcard set (`emitter.offAny(b)`) and every other
listener is inert. -/
def anySetRemoverBeh (a b : Nat) : Behavior Unit :=
  fun L _ st s =>
    if L = a then { state := offAny st b, ext := s, err := none }
    else { state := st, ext := s, err := none }

/-- A listener environment where listener `f` throws error `e` and every
other listener is inert. -/
def failBeh (f e : Nat) : Behavior Unit :=
  fun L _ st s =>
    if L = f then { state := st, ext := s, err := some e }
    else { state := st, ext := s, err := none }

/-- The methods defined on `class kEvents` in src/index.js, in source order. -/
def kEventsMethods : List String :=
  ["constructor", "on", "emit", "emitSerial", "off", "once", "clearListeners",
   "listenerCount", "onAny", "offAny", "events"]

/-! ### Lemmas about the `Set` model -/

theorem setAdd_ne_nil (s : List Nat) (x : Nat) : setAdd s x ≠ [] := by
  unfold setAdd
  split
  · intro h
    subst h
    simp at *
  · simp

theorem mem_setAdd_self (s : List Nat) (x : Nat) : x ∈ setAdd s x := by
  unfold setAdd
  split
  · assumption
  · simp

theorem mem_setAdd_of_mem {s : List Nat} {y : Nat} (x : Nat) (h : y ∈ s) :
    y ∈ setAdd s x := by
  unfold setAdd
  split
  · exact h
  · exact List.mem_append_left _ h

theorem setAdd_idem (s : List Nat) (x : Nat) : setAdd (setAdd s x) x = setAdd s x := by
  unfold setAdd
  split
  · simp [setAdd, *]
  · simp

theorem not_mem_setDelete (s : List Nat) (x : Nat) : x ∉ setDelete s x := by
  unfold setDelete
  intro h
  have := List.of_mem_filter h
  simp at this

theorem setDelete_of_not_mem {s : List Nat} {x : Nat} (h : x ∉ s) :
    setDelete s x = s := by
  unfold setDelete
  apply List.filter_eq_self.2
  intro y hy
  simp only [decide_eq_true_eq]
  intro hyx
  exact h (hyx ▸ hy)

theorem mem_setDelete_iff {s : List Nat} {x y : Nat} :
    y ∈ setDelete s x ↔ y ∈ s ∧ y ≠ x := by
  unfold setDelete
  simp [List.mem_filter]

theorem nodup_setAdd {s : List Nat} (x : Nat) (h : s.Nodup) : (setAdd s x).Nodup := by
  unfold setAdd
  split
  · exact h
  · simp [List.nodup_append, h, *]

/-! ### Lemmas about the `Map` model -/

section MapLemmas

variable {α : Type} {β : Type} [DecidableEq α]

theorem mapGet_mapSet_self (m : List (α × β)) (k : α) (v : β) :
    mapGet (mapSet m k v) k = some v := by
  induction m with
  | nil => simp [mapGet, mapSet]
  | cons p rest ih =>
    obtain ⟨a, b⟩ := p
    by_cases h : a = k
    · simp [mapGet, mapSet, h]
    · simp [mapGet, mapSet, h, ih]

theorem mapGet_mapSet_ne (m : List (α × β)) {k k2 : α} (v : β) (h : k2 ≠ k) :
    mapGet (mapSet m k2 v) k = mapGet m k := by
  induction m with
  | nil => simp [mapGet, mapSet, h]
  | cons p rest ih =>
    obtain ⟨a, b⟩ := p
    by_cases ha : a = k2
    · subst ha
      simp [mapGet, mapSet, h]
    · simp [mapGet, mapSet, ha, ih]

theorem mapGet_mapDelete_ne (m : List (α × β)) {k k2 : α} (h : k2 ≠ k) :
    mapGet (mapDelete m k2) k = mapGet m k := by
  induction m with
  | nil => simp [mapGet, mapDelete]
  | cons p rest ih =>
    obtain ⟨a, b⟩ := p
    by_cases ha : a = k2
    · subst ha
      simp [mapGet, mapDelete, h]
    · simp [mapGet, mapDelete, ha, ih]

theorem mapSet_self {m : List (α × β)} {k : α} {v : β} (h : mapGet m k = some v) :
    mapSet m k v = m := by
  induction m with
  | nil => simp [mapGet] at h
  | cons p rest ih =>
    obtain ⟨a, b⟩ := p
    by_cases ha : a = k
    · simp only [mapGet, if_pos ha] at h
      obtain rfl : b = v := Option.some.inj h
      simp [mapSet, ha]
    · simp only [mapGet, if_neg ha] at h
      simp [mapSet, ha, ih h]

/-- The keys of a JS `Map` are pairwise distinct; association lists reachable
through the model's operations keep this invariant. -/
def keysNodup (m : List (α × β)) : Prop :=
  (m.map Prod.fst).Nodup

instance (m : List (α × β)) : Decidable (keysNodup m) := by
  unfold keysNodup
  infer_instance

theorem mapGet_eq_none_of_not_mem_keys {m : List (α × β)} {k : α}
    (h : k ∉ m.map Prod.fst) : mapGet m k = none := by
  induction m with
  | nil => rfl
  | cons p rest ih =>
    obtain ⟨a, b⟩ := p
    simp only [List.map_cons, List.mem_cons] at h
    push_neg at h
    have hak : ¬ a = k := fun hh => h.1 hh.symm
    simp [mapGet, hak, ih h.2]

theorem mapGet_mapDelete_self {m : List (α × β)} (k : α) (h : keysNodup m) :
    mapGet (mapDelete m k) k = none := by
  induction m with
  | nil => rfl
  | cons p rest ih =>
    obtain ⟨a, b⟩ := p
    unfold keysNodup at h
    simp only [List.map_cons, List.nodup_cons] at h
    by_cases ha : a = k
    · subst ha
      simp only [mapDelete, if_pos rfl]
      exact mapGet_eq_none_of_not_mem_keys h.1
    · simp [mapDelete, mapGet, ha, ih h.2]

theorem mem_keys_mapSet {m : List (α × β)} {k a : α} {v : β}
    (h : a ∈ (mapSet m k v).map Prod.fst) : a ∈ m.map Prod.fst ∨ a = k := by
  induction m with
  | nil =>
    simp [mapSet] at h
    exact Or.inr h
  | cons p rest ih =>
    obtain ⟨x, y⟩ := p
    by_cases hx : x = k
    · simp only [mapSet, if_pos hx, List.map_cons, List.mem_cons] at h
      rcases h with h | h
      · exact Or.inl (by simp [h])
      · exact Or.inl (by simp [h])
    · simp only [mapSet, if_neg hx, List.map_cons, List.mem_cons] at h
      rcases h with h | h
      · exact Or.inl (by simp [h])
      · rcases ih h with h2 | h2
        · exact Or.inl (by simp [h2])
        · exact Or.inr h2

theorem keysNodup_mapSet {m : List (α × β)} (k : α) (v : β) (h : keysNodup m) :
    keysNodup (mapSet m k v) := by
  induction m with
  | nil => simp [keysNodup, mapSet]
  | cons p rest ih =>
    obtain ⟨x, y⟩ := p
    unfold keysNodup at h ⊢
    simp only [List.map_cons, List.nodup_cons] at h
    by_cases hx : x = k
    · simpa [mapSet, hx] using h
    · simp only [mapSet, if_neg hx, List.map_cons, List.nodup_cons]
      refine ⟨fun hc => ?_, ih h.2⟩
      rcases mem_keys_mapSet hc with h2 | h2
      · exact h.1 h2
      · exact hx h2

theorem mem_keys_mapDelete {m : List (α × β)} {k a : α}
    (h : a ∈ (mapDelete m k).map Prod.fst) : a ∈ m.map Prod.fst := by
  induction m with
  | nil => simp [mapDelete] at h
  | cons p rest ih =>
    obtain ⟨x, y⟩ := p
    by_cases hx : x = k
    · simp only [mapDelete, if_pos hx] at h
      simp [h]
    · simp only [mapDelete, if_neg hx, List.map_cons, List.mem_cons] at h
      rcases h with h | h
      · simp [h]
      · simp [ih h]

theorem keysNodup_mapDelete {m : List (α × β)} (k : α) (h : keysNodup m) :
    keysNodup (mapDelete m k) := by
  induction m with
  | nil => exact h
  | cons p rest ih =>
    obtain ⟨x, y⟩ := p
    unfold keysNodup at h ⊢
    simp only [List.map_cons, List.nodup_cons] at h
    by_cases hx : x = k
    · simpa [mapDelete, hx] using h.2
    · simp only [mapDelete, if_neg hx, List.map_cons, List.nodup_cons]
      exact ⟨fun hc => h.1 (mem_keys_mapDelete hc), ih h.2⟩

end MapLemmas

theorem keysNodup_mapAddElem {α : Type} [DecidableEq α]
    {m : List (α × List Nat)} (k : α) (x : Nat) (h : keysNodup m) :
    keysNodup (mapAddElem m k x) := by
  unfold mapAddElem
  cases mapGet m k <;> exact keysNodup_mapSet _ _ h

theorem keysNodup_mapRemoveElem {α : Type} [DecidableEq α]
    {m : List (α × List Nat)} (k : α) (x : Nat) (h : keysNodup m) :
    keysNodup (mapRemoveElem m k x) := by
  unfold mapRemoveElem
  cases mapGet m k with
  | none => exact h
  | some s =>
    dsimp only
    split
    · exact keysNodup_mapDelete _ h
    · exact keysNodup_mapSet _ _ h

theorem mapGet_addElem_self {α : Type} [DecidableEq α]
    (m : List (α × List Nat)) (k : α) (x : Nat) :
    mapGet (mapAddElem m k x) k = some (setAdd ((mapGet m k).getD []) x) := by
  unfold mapAddElem
  cases hm : mapGet m k <;> simp [mapGet_mapSet_self, hm]

theorem mapGet_addElem_ne {α : Type} [DecidableEq α]
    (m : List (α × List Nat)) {k k2 : α} (x : Nat) (h : k2 ≠ k) :
    mapGet (mapAddElem m k2 x) k = mapGet m k := by
  unfold mapAddElem
  cases hm : mapGet m k2 <;> simp [mapGet_mapSet_ne _ _ h]

theorem mapGet_removeElem_ne {α : Type} [DecidableEq α]
    (m : List (α × List Nat)) {k k2 : α} (x : Nat) (h : k2 ≠ k) :
    mapGet (mapRemoveElem m k2 x) k = mapGet m k := by
  unfold mapRemoveElem
  cases hm : mapGet m k2 with
  | none => rfl
  | some s =>
    dsimp only
    split
    · exact mapGet_mapDelete_ne _ h
    · exact mapGet_mapSet_ne _ _ h

theorem mapGet_removeElem_self {α : Type} [DecidableEq α]
    {m : List (α × List Nat)} (k : α) (x : Nat) (h : keysNodup m) :
    mapGet (mapRemoveElem m k x) k =
      match mapGet m k with
      | none => none
      | some s => if setDelete s x = [] then none else some (setDelete s x) := by
  unfold mapRemoveElem
  cases hm : mapGet m k with
  | none => simp [hm]
  | some s =>
    dsimp only
    split
    · exact mapGet_mapDelete_self _ h
    · exact mapGet_mapSet_self _ _ _

/-- A key entry of the map is stable under removing `x`: either absent, or a
nonempty set not containing `x`. -/
def stableAt {α : Type} [DecidableEq α] (m : List (α × List Nat)) (k : α)
    (x : Nat) : Prop :=
  ∀ s, mapGet m k = some s → x ∉ s ∧ s ≠ []

theorem stableAt_removeElem_self {α : Type} [DecidableEq α]
    {m : List (α × List Nat)} (k : α) (x : Nat) (h : keysNodup m) :
    stableAt (mapRemoveElem m k x) k x := by
  intro s hs
  rw [mapGet_removeElem_self k x h] at hs
  cases hm : mapGet m k with
  | none => rw [hm] at hs; cases hs
  | some s0 =>
    rw [hm] at hs
    dsimp only at hs
    split at hs
    · cases hs
    · obtain rfl : s = setDelete s0 x := (Option.some.inj hs).symm
      exact ⟨not_mem_setDelete _ _, by assumption⟩

theorem stableAt_removeElem {α : Type} [DecidableEq α]
    {m : List (α × List Nat)} {k : α} {x : Nat} (k2 : α)
    (h : stableAt m k x) : stableAt (mapRemoveElem m k2 x) k x := by
  by_cases hk : k2 = k
  · subst hk
    intro s hs
    cases hm : mapGet m k2 with
    | none =>
      unfold mapRemoveElem at hs
      rw [hm] at hs
      rw [hm] at hs
      cases hs
    | some s0 =>
      obtain ⟨hx, hne⟩ := h s0 hm
      have hdel : setDelete s0 x = s0 := setDelete_of_not_mem hx
      unfold mapRemoveElem at hs
      rw [hm] at hs
      dsimp only at hs
      rw [hdel, if_neg hne, mapGet_mapSet_self] at hs
      obtain rfl : s = s0 := (Option.some.inj hs).symm
      exact ⟨hx, hne⟩
  · intro s hs
    rw [mapGet_removeElem_ne _ _ hk] at hs
    exact h s hs

theorem removeElem_of_stableAt {α : Type} [DecidableEq α]
    {m : List (α × List Nat)} {k : α} {x : Nat} (h : stableAt m k x) :
    mapRemoveElem m k x = m := by
  unfold mapRemoveElem
  cases hm : mapGet m k with
  | none => rfl
  | some s =>
    obtain ⟨hx, hne⟩ := h s hm
    dsimp only
    rw [setDelete_of_not_mem hx, if_neg hne]
    exact mapSet_self hm

/-! ### Lemmas about the listener registry operations -/

theorem offLoop_anySet (ns : List JSVal) (st : EmitterState) (L : Nat) :
    (offLoop st ns L).1.anySet = st.anySet := by
  induction ns generalizing st with
  | nil => rfl
  | cons k rest ih =>
    unfold offLoop
    split
    · exact ih _
    · rfl

theorem offLoop_producers (ns : List JSVal) (st : EmitterState) (L : Nat) :
    (offLoop st ns L).1.producers = st.producers := by
  induction ns generalizing st with
  | nil => rfl
  | cons k rest ih =>
    unfold offLoop
    split
    · exact ih _
    · rfl

theorem offLoop_cells (ns : List JSVal) (st : EmitterState) (L : Nat) :
    (offLoop st ns L).1.cells = st.cells := by
  induction ns generalizing st with
  | nil => rfl
  | cons k rest ih =>
    unfold offLoop
    split
    · exact ih _
    · rfl

theorem keysNodup_offLoop (ns : List JSVal) (st : EmitterState) (L : Nat)
    (h : keysNodup st.events) : keysNodup (offLoop st ns L).1.events := by
  induction ns generalizing st with
  | nil => exact h
  | cons k rest ih =>
    unfold offLoop
    split
    · exact ih _ (keysNodup_mapRemoveElem _ _ h)
    · exact h

theorem stableAt_offLoop (ns : List JSVal) (st : EmitterState) (L : Nat)
    {k : JSVal} (h : stableAt st.events k L) :
    stableAt (offLoop st ns L).1.events k L := by
  induction ns generalizing st with
  | nil => exact h
  | cons k2 rest ih =>
    unfold offLoop
    split
    · exact ih _ (stableAt_removeElem _ h)
    · exact h

theorem offLoop_cons_pos (st : EmitterState) (k : JSVal) (rest : List JSVal)
    (L : Nat) (hk : isEventKeyType k = true) :
    offLoop st (k :: rest) L = offLoop (removeListener st k L) rest L := by
  simp only [offLoop]
  rw [if_pos hk]

theorem offLoop_cons_neg (st : EmitterState) (k : JSVal) (rest : List JSVal)
    (L : Nat) (hk : ¬ isEventKeyType k = true) :
    offLoop st (k :: rest) L = (st, some JSError.invalidEventKey) := by
  simp only [offLoop]
  rw [if_neg hk]

theorem removeListener_stable {st : EmitterState} {k : JSVal} {L : Nat}
    (h : stableAt st.events k L) : removeListener st k L = st := by
  unfold removeListener
  rw [removeElem_of_stableAt h]

theorem offLoop_removes (ns : List JSVal) :
    ∀ (st : EmitterState) (L : Nat) (k : JSVal), k ∈ ns →
      (∀ k2 ∈ ns, isEventKeyType k2 = true) → keysNodup st.events →
      stableAt (offLoop st ns L).1.events k L := by
  induction ns with
  | nil =>
    intro st L k hk _ _
    cases hk
  | cons k2 rest ih =>
    intro st L k hk hv hn
    have hk2 : isEventKeyType k2 = true := hv k2 (List.mem_cons_self _ _)
    rw [offLoop_cons_pos st k2 rest L hk2]
    rcases List.mem_cons.1 hk with rfl | hmem
    · exact stableAt_offLoop rest _ L (stableAt_removeElem_self _ _ hn)
    · exact ih _ L k hmem (fun x hx => hv x (List.mem_cons_of_mem _ hx))
        (keysNodup_mapRemoveElem _ _ hn)

theorem offLoop_idem (ns : List JSVal) :
    ∀ (st : EmitterState) (L : Nat), keysNodup st.events →
      offLoop (offLoop st ns L).1 ns L = offLoop st ns L := by
  induction ns with
  | nil =>
    intro st L _
    rfl
  | cons k rest ih =>
    intro st L hn
    by_cases hk : isEventKeyType k = true
    · rw [offLoop_cons_pos st k rest L hk]
      have hstable : stableAt (offLoop (removeListener st k L) rest L).1.events k L :=
        stableAt_offLoop rest _ L (stableAt_removeElem_self _ _ hn)
      rw [offLoop_cons_pos _ k rest L hk, removeListener_stable hstable]
      exact ih _ L (keysNodup_mapRemoveElem _ _ hn)
    · rw [offLoop_cons_neg st k rest L hk]
      exact offLoop_cons_neg st k rest L hk

theorem offLoop_noop (ns : List JSVal) :
    ∀ (st : EmitterState) (L : Nat), (∀ k ∈ ns, isEventKeyType k = true) →
      (∀ k ∈ ns, stableAt st.events k L) → offLoop st ns L = (st, none) := by
  induction ns with
  | nil =>
    intro st L _ _
    rfl
  | cons k rest ih =>
    intro st L hv hs
    have hk : isEventKeyType k = true := hv k (List.mem_cons_self _ _)
    rw [offLoop_cons_pos st k rest L hk,
      removeListener_stable (hs k (List.mem_cons_self _ _))]
    exact ih st L (fun x hx => hv x (List.mem_cons_of_mem _ hx))
      (fun x hx => hs x (List.mem_cons_of_mem _ hx))

theorem keysNodup_onLoop (ns : List JSVal) (st : EmitterState) (L : Nat)
    (h : keysNodup st.events) : keysNodup (onLoop st ns L).1.events := by
  induction ns generalizing st with
  | nil => exact h
  | cons k rest ih =>
    unfold onLoop
    split
    · exact ih _ (keysNodup_mapAddElem _ _ h)
    · exact h

theorem onLoop_cons_pos (st : EmitterState) (k : JSVal) (rest : List JSVal)
    (L : Nat) (hk : isEventKeyType k = true) :
    onLoop st (k :: rest) L = onLoop (addListener st k L) rest L := by
  simp only [onLoop]
  rw [if_pos hk]

theorem onLoop_cons_neg (st : EmitterState) (k : JSVal) (rest : List JSVal)
    (L : Nat) (hk : ¬ isEventKeyType k = true) :
    onLoop st (k :: rest) L = (st, some JSError.invalidEventKey) := by
  simp only [onLoop]
  rw [if_neg hk]

theorem onLoop_interleaved (pre : List JSVal) :
    ∀ (st : EmitterState) (bad : JSVal) (rest : List JSVal) (L : Nat),
      (∀ k ∈ pre, isEventKeyType k = true) → isEventKeyType bad = false →
      onLoop st (pre ++ bad :: rest) L =
        (pre.foldl (fun s k => addListener s k L) st, some JSError.invalidEventKey) := by
  induction pre with
  | nil =>
    intro st bad rest L _ hbad
    rw [List.nil_append, List.foldl_nil]
    exact onLoop_cons_neg st bad rest L (by simp [hbad])
  | cons k tail ih =>
    intro st bad rest L hpre hbad
    have hk : isEventKeyType k = true := hpre k (List.mem_cons_self _ _)
    rw [List.cons_append, onLoop_cons_pos _ k _ L hk, List.foldl_cons]
    exact ih _ bad rest L (fun x hx => hpre x (List.mem_cons_of_mem _ hx)) hbad

theorem offLoop_interleaved (pre : List JSVal) :
    ∀ (st : EmitterState) (bad : JSVal) (rest : List JSVal) (L : Nat),
      (∀ k ∈ pre, isEventKeyType k = true) → isEventKeyType bad = false →
      offLoop st (pre ++ bad :: rest) L =
        (pre.foldl (fun s k => removeListener s k L) st,
          some JSError.invalidEventKey) := by
  induction pre with
  | nil =>
    intro st bad rest L _ hbad
    rw [List.nil_append, List.foldl_nil]
    exact offLoop_cons_neg st bad rest L (by simp [hbad])
  | cons k tail ih =>
    intro st bad rest L hpre hbad
    have hk : isEventKeyType k = true := hpre k (List.mem_cons_self _ _)
    rw [List.cons_append, offLoop_cons_pos _ k _ L hk, List.foldl_cons]
    exact ih _ bad rest L (fun x hx => hpre x (List.mem_cons_of_mem _ hx)) hbad

/-! ### The no-empty-entry invariant -/

/-- No entry of the map holds an empty set. -/
def noEmptyMap {α : Type} (m : List (α × List Nat)) : Prop :=
  ∀ p ∈ m, p.2 ≠ ([] : List Nat)

instance {α : Type} [DecidableEq α] (m : List (α × List Nat)) :
    Decidable (noEmptyMap m) := by
  unfold noEmptyMap
  infer_instance

theorem mem_mapSet {α β : Type} [DecidableEq α] {m : List (α × β)} {k : α}
    {v : β} {p : α × β} (h : p ∈ mapSet m k v) : p ∈ m ∨ p.2 = v := by
  induction m with
  | nil =>
    simp [mapSet] at h
    exact Or.inr (by simp [h])
  | cons q rest ih =>
    obtain ⟨a, b⟩ := q
    by_cases ha : a = k
    · simp only [mapSet, if_pos ha, List.mem_cons] at h
      rcases h with h | h
      · exact Or.inr (by simp [h])
      · exact Or.inl (List.mem_cons_of_mem _ h)
    · simp only [mapSet, if_neg ha, List.mem_cons] at h
      rcases h with h | h
      · exact Or.inl (by simp [h])
      · rcases ih h with h2 | h2
        · exact Or.inl (List.mem_cons_of_mem _ h2)
        · exact Or.inr h2

theorem mem_mapDelete {α β : Type} [DecidableEq α] {m : List (α × β)} {k : α}
    {p : α × β} (h : p ∈ mapDelete m k) : p ∈ m := by
  induction m with
  | nil => simp [mapDelete] at h
  | cons q rest ih =>
    obtain ⟨a, b⟩ := q
    by_cases ha : a = k
    · simp only [mapDelete, if_pos ha] at h
      exact List.mem_cons_of_mem _ h
    · simp only [mapDelete, if_neg ha, List.mem_cons] at h
      rcases h with h | h
      · exact List.mem_cons.2 (Or.inl h)
      · exact List.mem_cons_of_mem _ (ih h)

theorem noEmptyMap_mapAddElem {α : Type} [DecidableEq α]
    {m : List (α × List Nat)} (k : α) (x : Nat) (h : noEmptyMap m) :
    noEmptyMap (mapAddElem m k x) := by
  intro p hp
  unfold mapAddElem at hp
  cases hm : mapGet m k with
  | some s =>
    rw [hm] at hp
    rcases mem_mapSet hp with h2 | h2
    · exact h p h2
    · rw [h2]
      exact setAdd_ne_nil s x
  | none =>
    rw [hm] at hp
    rcases mem_mapSet hp with h2 | h2
    · exact h p h2
    · rw [h2]
      exact setAdd_ne_nil [] x

theorem noEmptyMap_mapRemoveElem {α : Type} [DecidableEq α]
    {m : List (α × List Nat)} (k : α) (x : Nat) (h : noEmptyMap m) :
    noEmptyMap (mapRemoveElem m k x) := by
  intro p hp
  unfold mapRemoveElem at hp
  cases hm : mapGet m k with
  | none =>
    rw [hm] at hp
    exact h p hp
  | some s =>
    rw [hm] at hp
    dsimp only at hp
    by_cases hd : setDelete s x = []
    · rw [if_pos hd] at hp
      exact h p (mem_mapDelete hp)
    · rw [if_neg hd] at hp
      rcases mem_mapSet hp with h2 | h2
      · exact h p h2
      · rw [h2]
        exact hd

theorem noEmptyMap_onLoop (ns : List JSVal) :
    ∀ (st : EmitterState) (L : Nat), noEmptyMap st.events →
      noEmptyMap (onLoop st ns L).1.events := by
  induction ns with
  | nil =>
    intro st L h
    exact h
  | cons k rest ih =>
    intro st L h
    by_cases hk : isEventKeyType k = true
    · rw [onLoop_cons_pos st k rest L hk]
      exact ih _ L (noEmptyMap_mapAddElem _ _ h)
    · rw [onLoop_cons_neg st k rest L hk]
      exact h

theorem noEmptyMap_offLoop (ns : List JSVal) :
    ∀ (st : EmitterState) (L : Nat), noEmptyMap st.events →
      noEmptyMap (offLoop st ns L).1.events := by
  induction ns with
  | nil =>
    intro st L h
    exact h
  | cons k rest ih =>
    intro st L h
    by_cases hk : isEventKeyType k = true
    · rw [offLoop_cons_pos st k rest L hk]
      exact ih _ L (noEmptyMap_mapRemoveElem _ _ h)
    · rw [offLoop_cons_neg st k rest L hk]
      exact h

/-! ### Lemmas about the dispatch loops -/

theorem invokeKeyLoop_cons_skip {σ : Type} (beh : Behavior σ) (en ed : JSVal)
    {L : Nat} (rest : List Nat) {st : EmitterState} (s : σ)
    (hL : L ∉ liveListeners st en) :
    invokeKeyLoop beh en ed (L :: rest) st s = invokeKeyLoop beh en ed rest st s := by
  simp only [invokeKeyLoop]
  rw [if_neg hL]

theorem invokeKeyLoop_cons_ok {σ : Type} (beh : Behavior σ) (en ed : JSVal)
    {L : Nat} (rest : List Nat) {st st1 : EmitterState} {s s1 : σ}
    (hL : L ∈ liveListeners st en)
    (hr : beh L (CallArg.data ed) st s = ⟨st1, s1, none⟩) :
    invokeKeyLoop beh en ed (L :: rest) st s =
      ⟨(invokeKeyLoop beh en ed rest st1 s1).state,
        (invokeKeyLoop beh en ed rest st1 s1).ext,
        (L, CallArg.data ed) :: (invokeKeyLoop beh en ed rest st1 s1).calls,
        (invokeKeyLoop beh en ed rest st1 s1).err⟩ := by
  simp only [invokeKeyLoop]
  rw [if_pos hL, hr]

theorem invokeKeyLoop_cons_err {σ : Type} (beh : Behavior σ) (en ed : JSVal)
    {L : Nat} (rest : List Nat) {st st1 : EmitterState} {s s1 : σ} {e : Nat}
    (hL : L ∈ liveListeners st en)
    (hr : beh L (CallArg.data ed) st s = ⟨st1, s1, some e⟩) :
    invokeKeyLoop beh en ed (L :: rest) st s =
      ⟨st1, s1, [(L, CallArg.data ed)], some (JSError.thrown e)⟩ := by
  simp only [invokeKeyLoop]
  rw [if_pos hL, hr]

theorem invokeAnyLoop_cons_skip {σ : Type} (beh : Behavior σ) (en ed : JSVal)
    {L : Nat} (rest : List Nat) {st : EmitterState} (s : σ)
    (hL : L ∉ st.anySet) :
    invokeAnyLoop beh en ed (L :: rest) st s = invokeAnyLoop beh en ed rest st s := by
  simp only [invokeAnyLoop]
  rw [if_neg hL]

theorem invokeAnyLoop_cons_ok {σ : Type} (beh : Behavior σ) (en ed : JSVal)
    {L : Nat} (rest : List Nat) {st st1 : EmitterState} {s s1 : σ}
    (hL : L ∈ st.anySet)
    (hr : beh L (CallArg.keyed en ed) st s = ⟨st1, s1, none⟩) :
    invokeAnyLoop beh en ed (L :: rest) st s =
      ⟨(invokeAnyLoop beh en ed rest st1 s1).state,
        (invokeAnyLoop beh en ed rest st1 s1).ext,
        (L, CallArg.keyed en ed) :: (invokeAnyLoop beh en ed rest st1 s1).calls,
        (invokeAnyLoop beh en ed rest st1 s1).err⟩ := by
  simp only [invokeAnyLoop]
  rw [if_pos hL, hr]

/-- The listener does nothing at all. -/
def BehInert {σ : Type} (beh : Behavior σ) : Prop :=
  ∀ (L : Nat) (a : CallArg) (st : EmitterState) (s : σ), beh L a st s = ⟨st, s, none⟩

/-- The listener never touches the stream registry or any producer buffer. -/
def BehStreamFrame {σ : Type} (beh : Behavior σ) : Prop :=
  ∀ (L : Nat) (a : CallArg) (st : EmitterState) (s : σ),
    (beh L a st s).state.producers = st.producers ∧
      (beh L a st s).state.cells = st.cells

/-- The listener never touches the wildcard listener set. -/
def BehAnyFrame {σ : Type} (beh : Behavior σ) : Prop :=
  ∀ (L : Nat) (a : CallArg) (st : EmitterState) (s : σ),
    (beh L a st s).state.anySet = st.anySet

/-- The listener preserves the pruned-registry invariant. -/
def BehNoEmpty {σ : Type} (beh : Behavior σ) : Prop :=
  ∀ (L : Nat) (a : CallArg) (st : EmitterState) (s : σ),
    noEmptyMap st.events → noEmptyMap (beh L a st s).state.events

theorem invokeKeyLoop_inert {σ : Type} {beh : Behavior σ} (hb : BehInert beh)
    (en ed : JSVal) :
    ∀ (S : List Nat) (st : EmitterState) (s : σ),
      (∀ x ∈ S, x ∈ liveListeners st en) →
      invokeKeyLoop beh en ed S st s =
        ⟨st, s, S.map (fun L => (L, CallArg.data ed)), none⟩ := by
  intro S
  induction S with
  | nil =>
    intro st s _
    rfl
  | cons L rest ih =>
    intro st s hs
    have hL : L ∈ liveListeners st en := hs L (List.mem_cons_self _ _)
    rw [invokeKeyLoop_cons_ok beh en ed rest hL (hb L _ st s),
      ih st s (fun x hx => hs x (List.mem_cons_of_mem _ hx))]
    rfl

theorem invokeAnyLoop_inert {σ : Type} {beh : Behavior σ} (hb : BehInert beh)
    (en ed : JSVal) :
    ∀ (S : List Nat) (st : EmitterState) (s : σ),
      (∀ x ∈ S, x ∈ st.anySet) →
      invokeAnyLoop beh en ed S st s =
        ⟨st, s, S.map (fun L => (L, CallArg.keyed en ed)), none⟩ := by
  intro S
  induction S with
  | nil =>
    intro st s _
    rfl
  | cons L rest ih =>
    intro st s hs
    have hL : L ∈ st.anySet := hs L (List.mem_cons_self _ _)
    rw [invokeAnyLoop_cons_ok beh en ed rest hL (hb L _ st s),
      ih st s (fun x hx => hs x (List.mem_cons_of_mem _ hx))]
    rfl

theorem invokeKeyLoop_fail {σ : Type} {beh : Behavior σ} {F e : Nat}
    (hF : ∀ (a : CallArg) (st : EmitterState) (s : σ), beh F a st s = ⟨st, s, some e⟩)
    (hO : ∀ (L : Nat), L ≠ F → ∀ (a : CallArg) (st : EmitterState) (s : σ),
      beh L a st s = ⟨st, s, none⟩)
    (en ed : JSVal) :
    ∀ (p : List Nat) (r : List Nat) (st : EmitterState) (s : σ), F ∉ p →
      (∀ x ∈ p ++ F :: r, x ∈ liveListeners st en) →
      invokeKeyLoop beh en ed (p ++ F :: r) st s =
        ⟨st, s, p.map (fun L => (L, CallArg.data ed)) ++ [(F, CallArg.data ed)],
          some (JSError.thrown e)⟩ := by
  intro p
  induction p with
  | nil =>
    intro r st s _ hlive
    have hFlive : F ∈ liveListeners st en :=
      hlive F (by simp)
    rw [List.nil_append, invokeKeyLoop_cons_err beh en ed r hFlive (hF _ st s)]
    rfl
  | cons x p ih =>
    intro r st s hFp hlive
    have hxF : x ≠ F := by
      intro hx
      exact hFp (by simp [hx])
    have hxlive : x ∈ liveListeners st en := hlive x (by simp)
    rw [List.cons_append,
      invokeKeyLoop_cons_ok beh en ed (p ++ F :: r) hxlive (hO x hxF _ st s),
      ih r st s (fun hx => hFp (List.mem_cons_of_mem _ hx))
        (fun y hy => hlive y (by simp [hy]))]
    rfl

theorem invokeKeyLoop_streamFrame {σ : Type} {beh : Behavior σ}
    (hb : BehStreamFrame beh) (en ed : JSVal) :
    ∀ (S : List Nat) (st : EmitterState) (s : σ),
      (invokeKeyLoop beh en ed S st s).state.producers = st.producers ∧
        (invokeKeyLoop beh en ed S st s).state.cells = st.cells := by
  intro S
  induction S with
  | nil =>
    intro st s
    exact ⟨rfl, rfl⟩
  | cons L rest ih =>
    intro st s
    by_cases hL : L ∈ liveListeners st en
    · rcases hr : beh L (CallArg.data ed) st s with ⟨st1, s1, err⟩
      have hfr := hb L (CallArg.data ed) st s
      rw [hr] at hfr
      cases err with
      | some e =>
        rw [invokeKeyLoop_cons_err beh en ed rest hL hr]
        exact hfr
      | none =>
        rw [invokeKeyLoop_cons_ok beh en ed rest hL hr]
        exact ⟨(ih st1 s1).1.trans hfr.1, (ih st1 s1).2.trans hfr.2⟩
    · rw [invokeKeyLoop_cons_skip beh en ed rest s hL]
      exact ih st s

theorem invokeAnyLoop_streamFrame {σ : Type} {beh : Behavior σ}
    (hb : BehStreamFrame beh) (en ed : JSVal) :
    ∀ (S : List Nat) (st : EmitterState) (s : σ),
      (invokeAnyLoop beh en ed S st s).state.producers = st.producers ∧
        (invokeAnyLoop beh en ed S st s).state.cells = st.cells := by
  intro S
  induction S with
  | nil =>
    intro st s
    exact ⟨rfl, rfl⟩
  | cons L rest ih =>
    intro st s
    by_cases hL : L ∈ st.anySet
    · rcases hr : beh L (CallArg.keyed en ed) st s with ⟨st1, s1, err⟩
      have hfr := hb L (CallArg.keyed en ed) st s
      rw [hr] at hfr
      cases err with
      | some e =>
        simp only [invokeAnyLoop]
        rw [if_pos hL, hr]
        exact hfr
      | none =>
        rw [invokeAnyLoop_cons_ok beh en ed rest hL hr]
        exact ⟨(ih st1 s1).1.trans hfr.1, (ih st1 s1).2.trans hfr.2⟩
    · rw [invokeAnyLoop_cons_skip beh en ed rest s hL]
      exact ih st s

theorem invokeKeyLoop_anyFrame {σ : Type} {beh : Behavior σ}
    (hb : BehAnyFrame beh) (en ed : JSVal) :
    ∀ (S : List Nat) (st : EmitterState) (s : σ),
      (invokeKeyLoop beh en ed S st s).state.anySet = st.anySet := by
  intro S
  induction S with
  | nil =>
    intro st s
    rfl
  | cons L rest ih =>
    intro st s
    by_cases hL : L ∈ liveListeners st en
    · rcases hr : beh L (CallArg.data ed) st s with ⟨st1, s1, err⟩
      have hfr := hb L (CallArg.data ed) st s
      rw [hr] at hfr
      cases err with
      | some e =>
        rw [invokeKeyLoop_cons_err beh en ed rest hL hr]
        exact hfr
      | none =>
        rw [invokeKeyLoop_cons_ok beh en ed rest hL hr]
        exact (ih st1 s1).trans hfr
    · rw [invokeKeyLoop_cons_skip beh en ed rest s hL]
      exact ih st s

theorem invokeKeyLoop_noEmpty {σ : Type} {beh : Behavior σ}
    (hb : BehNoEmpty beh) (en ed : JSVal) :
    ∀ (S : List Nat) (st : EmitterState) (s : σ), noEmptyMap st.events →
      noEmptyMap (invokeKeyLoop beh en ed S st s).state.events := by
  intro S
  induction S with
  | nil =>
    intro st s h
    exact h
  | cons L rest ih =>
    intro st s h
    by_cases hL : L ∈ liveListeners st en
    · rcases hr : beh L (CallArg.data ed) st s with ⟨st1, s1, err⟩
      have hne : noEmptyMap st1.events := by
        have := hb L (CallArg.data ed) st s h
        rwa [hr] at this
      cases err with
      | some e =>
        rw [invokeKeyLoop_cons_err beh en ed rest hL hr]
        exact hne
      | none =>
        rw [invokeKeyLoop_cons_ok beh en ed rest hL hr]
        exact ih st1 s1 hne
    · rw [invokeKeyLoop_cons_skip beh en ed rest s hL]
      exact ih st s h

theorem invokeAnyLoop_noEmpty {σ : Type} {beh : Behavior σ}
    (hb : BehNoEmpty beh) (en ed : JSVal) :
    ∀ (S : List Nat) (st : EmitterState) (s : σ), noEmptyMap st.events →
      noEmptyMap (invokeAnyLoop beh en ed S st s).state.events := by
  intro S
  induction S with
  | nil =>
    intro st s h
    exact h
  | cons L rest ih =>
    intro st s h
    by_cases hL : L ∈ st.anySet
    · rcases hr : beh L (CallArg.keyed en ed) st s with ⟨st1, s1, err⟩
      have hne : noEmptyMap st1.events := by
        have := hb L (CallArg.keyed en ed) st s h
        rwa [hr] at this
      cases err with
      | some e =>
        simp only [invokeAnyLoop]
        rw [if_pos hL, hr]
        exact hne
      | none =>
        rw [invokeAnyLoop_cons_ok beh en ed rest hL hr]
        exact ih st1 s1 hne
    · rw [invokeAnyLoop_cons_skip beh en ed rest s hL]
      exact ih st s h

/-! ### Frame lemmas for the stream multiplexer -/

theorem enqueueProducers_events (st : EmitterState) (en ed : JSVal) :
    (enqueueProducers st en ed).events = st.events := by
  unfold enqueueProducers
  cases h1 : mapGet st.producers (ProdKey.key en) <;>
    dsimp only <;>
    cases h2 : mapGet st.producers ProdKey.anyProducer <;>
    rfl

theorem enqueueProducers_anySet (st : EmitterState) (en ed : JSVal) :
    (enqueueProducers st en ed).anySet = st.anySet := by
  unfold enqueueProducers
  cases h1 : mapGet st.producers (ProdKey.key en) <;>
    dsimp only <;>
    cases h2 : mapGet st.producers ProdKey.anyProducer <;>
    rfl

theorem enqueueProducers_producers (st : EmitterState) (en ed : JSVal) :
    (enqueueProducers st en ed).producers = st.producers := by
  unfold enqueueProducers
  cases h1 : mapGet st.producers (ProdKey.key en) <;>
    dsimp only <;>
    cases h2 : mapGet st.producers ProdKey.anyProducer <;>
    rfl

theorem emit_valid {σ : Type} (beh : Behavior σ) (st : EmitterState)
    (en ed : JSVal) (s : σ) (hk : isEventKeyType en = true) :
    emit beh st en ed s = dispatchBody beh (enqueueProducers st en ed) en ed s := by
  unfold emit
  rw [if_pos hk]

theorem emitSerial_valid {σ : Type} (beh : Behavior σ) (st : EmitterState)
    (en ed : JSVal) (s : σ) (hk : isEventKeyType en = true) :
    emitSerial beh st en ed s = dispatchBody beh st en ed s := by
  unfold emitSerial
  rw [if_pos hk]

/-! ### Machinery for the mid-emission removal scenario -/

theorem stableAt_spec {α : Type} [DecidableEq α] {m : List (α × List Nat)}
    {k : α} {x : Nat} (h : stableAt m k x) :
    x ∉ (mapGet m k).getD [] ∧ mapGet m k ≠ some [] := by
  cases hm : mapGet m k with
  | none => exact ⟨by simp, by simp⟩
  | some s =>
    obtain ⟨h1, h2⟩ := h s hm
    exact ⟨by simpa using h1, by simpa using h2⟩

theorem not_mem_live_of_stableAt {st : EmitterState} {k : JSVal} {L : Nat}
    (h : stableAt st.events k L) : L ∉ liveListeners st k :=
  (stableAt_spec h).1

theorem mem_live_removeListener {st : EmitterState} {k : JSVal} {A B : Nat}
    (hAB : A ≠ B) (hA : A ∈ liveListeners st k) :
    A ∈ liveListeners (removeListener st k B) k := by
  unfold liveListeners getListeners removeListener at *
  dsimp only at *
  cases hm : mapGet st.events k with
  | none =>
    rw [hm] at hA
    simp at hA
  | some s =>
    rw [hm] at hA
    simp only [Option.getD_some] at hA
    have hmem : A ∈ setDelete s B := mem_setDelete_iff.2 ⟨hA, hAB⟩
    have hne : setDelete s B ≠ [] := List.ne_nil_of_mem hmem
    unfold mapRemoveElem
    rw [hm]
    dsimp only
    rw [if_neg hne, mapGet_mapSet_self]
    simpa using hmem

theorem removerBeh_eq_self (k : JSVal) (A B : Nat) {L : Nat} (a : CallArg)
    (st : EmitterState) (s : Unit) (hL : L ≠ A) :
    removerBeh k A B L a st s = ⟨st, s, none⟩ := by
  unfold removerBeh
  rw [if_neg hL]

theorem removerBeh_eq_hit (k : JSVal) (A B : Nat) (a : CallArg)
    (st : EmitterState) (s : Unit) :
    removerBeh k A B A a st s = ⟨(offLoop st [k] B).1, s, none⟩ := by
  unfold removerBeh
  rw [if_pos rfl]

theorem removerBeh_anyFrame (k : JSVal) (A B : Nat) :
    BehAnyFrame (removerBeh k A B) := by
  intro L a st s
  unfold removerBeh
  split
  · exact offLoop_anySet [k] st B
  · rfl

theorem offLoop_single_valid (st : EmitterState) {k : JSVal} (B : Nat)
    (hk : isEventKeyType k = true) :
    (offLoop st [k] B).1 = removeListener st k B := by
  rw [offLoop_cons_pos st k [] B hk]
  rfl

theorem removerKeyLoop_absent (k d : JSVal) (A B : Nat) :
    ∀ (S : List Nat) (st : EmitterState) (s : Unit), keysNodup st.events →
      B ∉ liveListeners st k →
      (∀ c ∈ (invokeKeyLoop (removerBeh k A B) k d S st s).calls, c.1 ≠ B) ∧
        keysNodup (invokeKeyLoop (removerBeh k A B) k d S st s).state.events ∧
        B ∉ liveListeners (invokeKeyLoop (removerBeh k A B) k d S st s).state k := by
  intro S
  induction S with
  | nil =>
    intro st s hn habs
    exact ⟨fun c hc => absurd hc (List.not_mem_nil c), hn, habs⟩
  | cons L rest ih =>
    intro st s hn habs
    by_cases hL : L ∈ liveListeners st k
    · have hLB : L ≠ B := fun h => habs (h ▸ hL)
      by_cases hLA : L = A
      · subst hLA
        rw [invokeKeyLoop_cons_ok _ k d rest hL (removerBeh_eq_hit k L B _ st s)]
        have hn1 : keysNodup (offLoop st [k] B).1.events :=
          keysNodup_offLoop [k] st B hn
        have habs1 : B ∉ liveListeners (offLoop st [k] B).1 k := by
          by_cases hkv : isEventKeyType k = true
          · rw [offLoop_single_valid st B hkv]
            exact not_mem_live_of_stableAt (stableAt_removeElem_self _ _ hn)
          · rw [offLoop_cons_neg st k [] B hkv]
            exact habs
        obtain ⟨ihc, ihn, ihabs⟩ := ih _ s hn1 habs1
        refine ⟨?_, ihn, ihabs⟩
        intro c hc
        rcases List.mem_cons.1 hc with rfl | hc2
        · exact hLB
        · exact ihc c hc2
      · rw [invokeKeyLoop_cons_ok _ k d rest hL (removerBeh_eq_self k A B _ st s hLA)]
        obtain ⟨ihc, ihn, ihabs⟩ := ih st s hn habs
        refine ⟨?_, ihn, ihabs⟩
        intro c hc
        rcases List.mem_cons.1 hc with rfl | hc2
        · exact hLB
        · exact ihc c hc2
    · rw [invokeKeyLoop_cons_skip _ k d rest s hL]
      exact ih st s hn habs

theorem removerKeyLoop_main (k d : JSVal) (A B : Nat)
    (hk : isEventKeyType k = true) (hAB : A ≠ B) :
    ∀ (p rest : List Nat) (st : EmitterState) (s : Unit), keysNodup st.events →
      B ∉ p → A ∈ liveListeners st k →
      ∀ c ∈ (invokeKeyLoop (removerBeh k A B) k d (p ++ A :: rest) st s).calls,
        c.1 ≠ B := by
  intro p
  induction p with
  | nil =>
    intro rest st s hn _ hA
    rw [List.nil_append,
      invokeKeyLoop_cons_ok _ k d rest hA (removerBeh_eq_hit k A B _ st s)]
    have hn1 : keysNodup (offLoop st [k] B).1.events :=
      keysNodup_offLoop [k] st B hn
    have habs1 : B ∉ liveListeners (offLoop st [k] B).1 k := by
      rw [offLoop_single_valid st B hk]
      exact not_mem_live_of_stableAt (stableAt_removeElem_self _ _ hn)
    obtain ⟨ihc, _, _⟩ := removerKeyLoop_absent k d A B rest _ s hn1 habs1
    intro c hc
    rcases List.mem_cons.1 hc with rfl | hc2
    · exact hAB
    · exact ihc c hc2
  | cons x p ih =>
    intro rest st s hn hBp hA
    have hxB : x ≠ B := by
      intro hx
      exact hBp (by simp [hx])
    have hBp2 : B ∉ p := fun hx => hBp (List.mem_cons_of_mem _ hx)
    rw [List.cons_append]
    by_cases hxlive : x ∈ liveListeners st k
    · by_cases hxA : x = A
      · subst hxA
        rw [invokeKeyLoop_cons_ok _ k d (p ++ x :: rest) hxlive
          (removerBeh_eq_hit k x B _ st s)]
        have hn1 : keysNodup (offLoop st [k] B).1.events :=
          keysNodup_offLoop [k] st B hn
        have hA1 : x ∈ liveListeners (offLoop st [k] B).1 k := by
          rw [offLoop_single_valid st B hk]
          exact mem_live_removeListener hAB hA
        intro c hc
        rcases List.mem_cons.1 hc with rfl | hc2
        · exact hxB
        · exact ih rest _ s hn1 hBp2 hA1 c hc2
      · rw [invokeKeyLoop_cons_ok _ k d (p ++ A :: rest) hxlive
          (removerBeh_eq_self k A B _ st s hxA)]
        intro c hc
        rcases List.mem_cons.1 hc with rfl | hc2
        · exact hxB
        · exact ih rest st s hn hBp2 hA c hc2
    · rw [invokeKeyLoop_cons_skip _ k d (p ++ A :: rest) s hxlive]
      exact ih rest st s hn hBp2 hA

theorem removerAnyLoop_absent (k d : JSVal) (A B : Nat) :
    ∀ (S : List Nat) (st : EmitterState) (s : Unit), B ∉ st.anySet →
      ∀ c ∈ (invokeAnyLoop (removerBeh k A B) k d S st s).calls, c.1 ≠ B := by
  intro S
  induction S with
  | nil =>
    intro st s _ c hc
    exact absurd hc (List.not_mem_nil c)
  | cons L rest ih =>
    intro st s habs
    by_cases hL : L ∈ st.anySet
    · have hLB : L ≠ B := fun h => habs (h ▸ hL)
      by_cases hLA : L = A
      · subst hLA
        rw [invokeAnyLoop_cons_ok _ k d rest hL (removerBeh_eq_hit k L B _ st s)]
        have habs1 : B ∉ (offLoop st [k] B).1.anySet := by
          rw [offLoop_anySet [k] st B]
          exact habs
        intro c hc
        rcases List.mem_cons.1 hc with rfl | hc2
        · exact hLB
        · exact ih _ s habs1 c hc2
      · rw [invokeAnyLoop_cons_ok _ k d rest hL (removerBeh_eq_self k A B _ st s hLA)]
        intro c hc
        rcases List.mem_cons.1 hc with rfl | hc2
        · exact hLB
        · exact ih st s habs c hc2
    · rw [invokeAnyLoop_cons_skip _ k d rest s hL]
      exact ih st s habs

/-! ### Lemmas about producer buffering -/

theorem enqueueAll_get_not_mem :
    ∀ (pids : List Nat) (cells : List (Nat × Cell)) (item : Item) (pid : Nat),
      pid ∉ pids → mapGet (enqueueAll cells pids item) pid = mapGet cells pid := by
  intro pids
  induction pids with
  | nil =>
    intro cells item pid _
    rfl
  | cons p rest ih =>
    intro cells item pid hp
    have hppid : p ≠ pid := fun h => hp (by simp [h])
    have hrest : pid ∉ rest := fun h => hp (List.mem_cons_of_mem _ h)
    simp only [enqueueAll]
    cases hm : mapGet cells p with
    | none => exact ih cells item pid hrest
    | some c =>
      dsimp only
      rw [ih _ item pid hrest, mapGet_mapSet_ne _ _ hppid]

theorem enqueueAll_get_mem :
    ∀ (pids : List Nat) (cells : List (Nat × Cell)) (item : Item) (pid : Nat)
      (c : Cell), pid ∈ pids → pids.Nodup → mapGet cells pid = some c →
      mapGet (enqueueAll cells pids item) pid = some (cellEnqueue c item) := by
  intro pids
  induction pids with
  | nil =>
    intro cells item pid c hmem _ _
    cases hmem
  | cons p rest ih =>
    intro cells item pid c hmem hnd hc
    obtain ⟨hhead, htail⟩ := List.nodup_cons.1 hnd
    by_cases hp : p = pid
    · subst hp
      simp only [enqueueAll]
      rw [hc]
      dsimp only
      rw [enqueueAll_get_not_mem rest _ item p hhead, mapGet_mapSet_self]
    · have hmem2 : pid ∈ rest := by
        rcases List.mem_cons.1 hmem with h | h
        · exact absurd h.symm hp
        · exact h
      simp only [enqueueAll]
      cases hm : mapGet cells p with
      | none => exact ih cells item pid c hmem2 htail hc
      | some cp =>
        dsimp only
        exact ih _ item pid c hmem2 htail
          (by rw [mapGet_mapSet_ne _ _ hp]; exact hc)

theorem enqueueProducers_key_buffer (st : EmitterState) (k d : JSVal)
    (pid : Nat) (q : List Item) (fin : Bool) (pids : List Nat)
    (h1 : mapGet st.producers (ProdKey.key k) = some pids) (hmem : pid ∈ pids)
    (hnd : pids.Nodup)
    (hany : ∀ apids, mapGet st.producers ProdKey.anyProducer = some apids →
      pid ∉ apids)
    (hc : mapGet st.cells pid = some { queue := some q, isFinished := fin }) :
    mapGet (enqueueProducers st k d).cells pid =
      some { queue := some (q ++ [Item.single d]), isFinished := fin } := by
  unfold enqueueProducers
  rw [h1]
  dsimp only
  have hb : mapGet (enqueueAll st.cells pids (Item.single d)) pid =
      some { queue := some (q ++ [Item.single d]), isFinished := fin } :=
    enqueueAll_get_mem pids st.cells (Item.single d) pid _ hmem hnd hc
  cases h2 : mapGet st.producers ProdKey.anyProducer with
  | none => exact hb
  | some apids =>
    dsimp only
    rw [enqueueAll_get_not_mem apids _ _ pid (hany apids h2)]
    exact hb

theorem enqueueProducers_any_buffer (st : EmitterState) (k d : JSVal)
    (pid : Nat) (q : List Item) (fin : Bool) (apids : List Nat)
    (h1 : mapGet st.producers ProdKey.anyProducer = some apids)
    (hmem : pid ∈ apids) (hnd : apids.Nodup)
    (hkey : ∀ pids, mapGet st.producers (ProdKey.key k) = some pids →
      pid ∉ pids)
    (hc : mapGet st.cells pid = some { queue := some q, isFinished := fin }) :
    mapGet (enqueueProducers st k d).cells pid =
      some { queue := some (q ++ [Item.pair k d]), isFinished := fin } := by
  unfold enqueueProducers
  cases h0 : mapGet st.producers (ProdKey.key k) with
  | none =>
    dsimp only
    rw [h1]
    exact enqueueAll_get_mem apids st.cells (Item.pair k d) pid
      { queue := some q, isFinished := fin } hmem hnd hc
  | some pids =>
    dsimp only
    rw [h1]
    dsimp only
    refine enqueueAll_get_mem apids _ (Item.pair k d) pid
      { queue := some q, isFinished := fin } hmem hnd ?_
    rw [enqueueAll_get_not_mem pids _ _ pid (hkey pids h0)]
    exact hc

/-! ### Lemmas about the iterator -/

theorem iterReturnLoop_cells :
    ∀ (ns : List JSVal) (st : EmitterState) (pid : Nat),
      (iterReturnLoop st ns pid).cells = st.cells := by
  intro ns
  induction ns with
  | nil =>
    intro st pid
    rfl
  | cons n rest ih =>
    intro st pid
    simp only [iterReturnLoop]
    exact ih _ pid

theorem stableAt_iterReturnLoop (ns : List JSVal) :
    ∀ (st : EmitterState) (pid : Nat) (pk : ProdKey),
      stableAt st.producers pk pid →
      stableAt (iterReturnLoop st ns pid).producers pk pid := by
  induction ns with
  | nil =>
    intro st pid pk h
    exact h
  | cons n rest ih =>
    intro st pid pk h
    simp only [iterReturnLoop]
    exact ih _ pid pk (stableAt_removeElem _ h)

theorem keysNodup_iterReturnLoop (ns : List JSVal) :
    ∀ (st : EmitterState) (pid : Nat), keysNodup st.producers →
      keysNodup (iterReturnLoop st ns pid).producers := by
  induction ns with
  | nil =>
    intro st pid h
    exact h
  | cons n rest ih =>
    intro st pid h
    simp only [iterReturnLoop]
    exact ih _ pid (keysNodup_mapRemoveElem _ _ h)

theorem iterReturnLoop_removes (ns : List JSVal) :
    ∀ (st : EmitterState) (pid : Nat) (k : JSVal), k ∈ ns →
      keysNodup st.producers →
      stableAt (iterReturnLoop st ns pid).producers (prodKeyOf k) pid := by
  induction ns with
  | nil =>
    intro st pid k hk _
    cases hk
  | cons n rest ih =>
    intro st pid k hk hn
    simp only [iterReturnLoop]
    rcases List.mem_cons.1 hk with rfl | hmem
    · exact stableAt_iterReturnLoop rest _ pid _ (stableAt_removeElem_self _ _ hn)
    · exact ih _ pid k hmem (keysNodup_mapRemoveElem _ _ hn)

theorem iterReturn_removes (st : EmitterState) (h : IterHandle) (k : JSVal)
    (hk : k ∈ h.names) (hn : keysNodup st.producers) :
    stableAt (iterReturn st h).producers (prodKeyOf k) h.pid := by
  unfold iterReturn
  cases hm : mapGet st.cells h.pid with
  | none =>
    dsimp only
    exact iterReturnLoop_removes h.names st h.pid k hk hn
  | some c =>
    dsimp only
    exact iterReturnLoop_removes h.names _ h.pid k hk hn

theorem iterNext_after_return (st : EmitterState) (h : IterHandle) (c : Cell)
    (hc : mapGet st.cells h.pid = some c) :
    iterNext (iterReturn st h) h = (iterReturn st h, NextOutcome.ready true none) := by
  have hcells : (iterReturn st h).cells =
      mapSet st.cells h.pid { c with queue := none } := by
    unfold iterReturn
    rw [hc]
    dsimp only
    exact iterReturnLoop_cells h.names _ h.pid
  have hget : mapGet (iterReturn st h).cells h.pid =
      some { c with queue := none } := by
    rw [hcells]
    exact mapGet_mapSet_self _ _ _
  unfold iterNext
  rw [hget]

/-! ### Dispatch-level lemmas -/

theorem dispatchBody_inert {σ : Type} {beh : Behavior σ} (hb : BehInert beh)
    (st : EmitterState) (en ed : JSVal) (s : σ) :
    dispatchBody beh st en ed s =
      ⟨st, s,
        (liveListeners st en).map (fun L => (L, CallArg.data ed)) ++
          st.anySet.map (fun L => (L, CallArg.keyed en ed)), none⟩ := by
  simp only [dispatchBody]
  rw [invokeKeyLoop_inert hb en ed (liveListeners st en) st s (fun x hx => hx)]
  dsimp only
  rw [invokeAnyLoop_inert hb en ed st.anySet st s (fun x hx => hx)]

theorem dispatchBody_fail {σ : Type} {beh : Behavior σ} {F e : Nat}
    (hF : ∀ (a : CallArg) (st : EmitterState) (s : σ), beh F a st s = ⟨st, s, some e⟩)
    (hO : ∀ (L : Nat), L ≠ F → ∀ (a : CallArg) (st : EmitterState) (s : σ),
      beh L a st s = ⟨st, s, none⟩)
    (st : EmitterState) (en ed : JSVal) (s : σ) (p r : List Nat)
    (hsnap : liveListeners st en = p ++ F :: r) (hFp : F ∉ p) :
    dispatchBody beh st en ed s =
      ⟨st, s, p.map (fun L => (L, CallArg.data ed)) ++ [(F, CallArg.data ed)],
        some (JSError.thrown e)⟩ := by
  simp only [dispatchBody]
  rw [hsnap, invokeKeyLoop_fail hF hO en ed p r st s hFp
    (fun y hy => by rw [hsnap]; exact hy)]

theorem dispatchBody_streamFrame {σ : Type} {beh : Behavior σ}
    (hb : BehStreamFrame beh) (st : EmitterState) (en ed : JSVal) (s : σ) :
    (dispatchBody beh st en ed s).state.producers = st.producers ∧
      (dispatchBody beh st en ed s).state.cells = st.cells := by
  simp only [dispatchBody]
  rcases hd1 : invokeKeyLoop beh en ed (liveListeners st en) st s with
    ⟨st1, s1, calls1, err1⟩
  have h1 : st1.producers = st.producers ∧ st1.cells = st.cells := by
    have := invokeKeyLoop_streamFrame hb en ed (liveListeners st en) st s
    rwa [hd1] at this
  cases err1 with
  | some e =>
    dsimp only
    exact h1
  | none =>
    dsimp only
    have h2 := invokeAnyLoop_streamFrame hb en ed st.anySet st1 s1
    exact ⟨h2.1.trans h1.1, h2.2.trans h1.2⟩

theorem dispatchBody_noEmpty {σ : Type} {beh : Behavior σ}
    (hb : BehNoEmpty beh) (st : EmitterState) (en ed : JSVal) (s : σ)
    (h : noEmptyMap st.events) :
    noEmptyMap (dispatchBody beh st en ed s).state.events := by
  simp only [dispatchBody]
  rcases hd1 : invokeKeyLoop beh en ed (liveListeners st en) st s with
    ⟨st1, s1, calls1, err1⟩
  have h1 : noEmptyMap st1.events := by
    have := invokeKeyLoop_noEmpty hb en ed (liveListeners st en) st s h
    rwa [hd1] at this
  cases err1 with
  | some e =>
    dsimp only
    exact h1
  | none =>
    dsimp only
    exact invokeAnyLoop_noEmpty hb en ed st.anySet st1 s1 h1

/-! ### Idempotent subscription lemmas -/

theorem setAdd_of_mem {s : List Nat} {x : Nat} (h : x ∈ s) : setAdd s x = s := by
  unfold setAdd
  rw [if_pos h]

theorem mapAddElem_of_mem {α : Type} [DecidableEq α] {m : List (α × List Nat)}
    {k : α} {x : Nat} {s : List Nat} (h : mapGet m k = some s) (hx : x ∈ s) :
    mapAddElem m k x = m := by
  unfold mapAddElem
  rw [h]
  dsimp only
  rw [setAdd_of_mem hx]
  exact mapSet_self h

theorem mapAddElem_idem {α : Type} [DecidableEq α] (m : List (α × List Nat))
    (k : α) (x : Nat) : mapAddElem (mapAddElem m k x) k x = mapAddElem m k x :=
  mapAddElem_of_mem (mapGet_addElem_self m k x) (mem_setAdd_self _ _)

theorem addListener_idem (st : EmitterState) (k : JSVal) (L : Nat) :
    addListener (addListener st k L) k L = addListener st k L := by
  unfold addListener
  dsimp only
  rw [mapAddElem_idem]

theorem on_single_state (st : EmitterState) (k : JSVal) (L : Nat)
    (hk : isEventKeyType k = true) :
    (on' st (EventNamesArg.single k) L).1 = addListener st k L := by
  have h : onLoop st [k] L = (addListener st k L, none) := by
    rw [onLoop_cons_pos st k [] L hk]
    rfl
  simp only [on', toArray]
  rw [h]

theorem liveListeners_addListener (st : EmitterState) (k : JSVal) (L : Nat) :
    liveListeners (addListener st k L) k = setAdd (liveListeners st k) L := by
  unfold liveListeners getListeners addListener
  dsimp only
  rw [mapGet_addElem_self]
  rfl

theorem length_filter_fst_map_pair (S : List Nat) (L : Nat) (a : CallArg) :
    ((S.map (fun x => (x, a))).filter (fun c => c.1 = L)).length = S.count L := by
  induction S with
  | nil => rfl
  | cons x S ih =>
    by_cases hx : x = L
    · simp [List.filter_cons, hx, List.count_cons, ih]
    · simp [List.filter_cons, hx, List.count_cons, ih]

theorem onLoop_anySet (ns : List JSVal) :
    ∀ (st : EmitterState) (L : Nat), (onLoop st ns L).1.anySet = st.anySet := by
  induction ns with
  | nil =>
    intro st L
    rfl
  | cons k rest ih =>
    intro st L
    by_cases hk : isEventKeyType k = true
    · rw [onLoop_cons_pos st k rest L hk]
      exact ih _ L
    · rw [onLoop_cons_neg st k rest L hk]

theorem mapGet_mem {α β : Type} [DecidableEq α] {m : List (α × β)} {k : α}
    {s : β} (h : mapGet m k = some s) : (k, s) ∈ m := by
  induction m with
  | nil => cases h
  | cons p rest ih =>
    obtain ⟨a, b⟩ := p
    by_cases ha : a = k
    · subst ha
      simp only [mapGet, if_pos rfl] at h
      obtain rfl : b = s := Option.some.inj h
      exact List.mem_cons_self _ _
    · simp only [mapGet, if_neg ha] at h
      exact List.mem_cons_of_mem _ (ih h)

theorem clearListenersNoArg_events (st : EmitterState) :
    (clearListenersNoArg st).events = [] := rfl

theorem clear_named_keeps_entry (st : EmitterState) (k : JSVal)
    (hk : isEventKeyType k = true) (s : List Nat)
    (hs : getListeners st k = some s) :
    getListeners (clearListeners st (EventNamesArg.array [k])) k = some [] := by
  have hstep : clearLoop st [k] = { st with events := mapSet st.events k [] } := by
    simp only [clearLoop]
    rw [if_pos hk, hs]
  unfold clearListeners toArray getListeners
  rw [hstep]
  exact mapGet_mapSet_self _ _ _

/-! ### Claim theorems -/

/-- C1 counterexample: `on(["a", undefined], L)` raises InvalidEventKey, but
the emitter state is NOT unchanged — the listener has already been added for
the valid key `"a"` that precedes the invalid one, contradicting the claim
that no listener is added for any key. -/
theorem C1_counterexample :
    (on' initState (EventNamesArg.array [JSVal.str "a", JSVal.undef]) 1).2 =
        Except.error JSError.invalidEventKey ∧
      (on' initState (EventNamesArg.array [JSVal.str "a", JSVal.undef]) 1).1 ≠
        initState ∧
      getListeners
          (on' initState (EventNamesArg.array [JSVal.str "a", JSVal.undef]) 1).1
          (JSVal.str "a") = some [1] :=
  ⟨rfl, by decide, rfl⟩

/-- C1 (amended): when a supplied event-name collection contains an invalid
key, `on` / `off` raise InvalidEventKey at the first invalid key, but
validation is interleaved with mutation: the listener has already been
added (`on`) / removed (`off`) for every valid key preceding the first
invalid key, and the keys from the invalid one onward are untouched. -/
theorem C1_interleaved_mutation :
    ∀ (st : EmitterState) (pre : List JSVal) (bad : JSVal) (rest : List JSVal)
      (L : Nat), (∀ k ∈ pre, isEventKeyType k = true) →
      isEventKeyType bad = false →
      onLoop st (pre ++ bad :: rest) L =
          (pre.foldl (fun s k => addListener s k L) st,
            some JSError.invalidEventKey) ∧
        offLoop st (pre ++ bad :: rest) L =
          (pre.foldl (fun s k => removeListener s k L) st,
            some JSError.invalidEventKey) :=
  fun st pre bad rest L h1 h2 =>
    ⟨onLoop_interleaved pre st bad rest L h1 h2, offLoop_interleaved pre st bad rest L h1 h2⟩

/-- C1 witness: the amended statement evaluated on a concrete call. -/
theorem C1_interleaved_mutation_witness :
    onLoop initState ([JSVal.str "a"] ++ JSVal.undef :: [JSVal.str "b"]) 1 =
        ([JSVal.str "a"].foldl (fun s k => addListener s k 1) initState,
          some JSError.invalidEventKey) ∧
      offLoop initState ([JSVal.str "a"] ++ JSVal.undef :: [JSVal.str "b"]) 1 =
        ([JSVal.str "a"].foldl (fun s k => removeListener s k 1) initState,
          some JSError.invalidEventKey) :=
  C1_interleaved_mutation initState [JSVal.str "a"] JSVal.undef [JSVal.str "b"] 1
    (by decide) (by decide)

/-- C2 counterexample: after `on("a", L)` then `clearListeners(["a"])`, the
registry retains an entry for `"a"` whose listener set is empty, contradicting
the claim that `clearListeners` on named keys leaves no empty-set entry. -/
theorem C2_counterexample :
    getListeners
        (clearListeners (on' initState (EventNamesArg.single (JSVal.str "a")) 1).1
          (EventNamesArg.array [JSVal.str "a"]))
        (JSVal.str "a") = some [] ∧
      ¬ noEmptyMap
        (clearListeners (on' initState (EventNamesArg.single (JSVal.str "a")) 1).1
          (EventNamesArg.array [JSVal.str "a"])).events :=
  ⟨rfl, by decide⟩

/-- C2 (amended): `on`, `off` (hence `once` and the unsubscribe handle),
`emit`, `emitSerial` (for listeners preserving the invariant), and
`clearListeners` with no argument never leave an empty-set entry in the
Listener Registry; but `clearListeners` applied to a named key only empties
that key's set in place and retains the now-empty entry. -/
theorem C2_pruned_except_named_clear :
    (∀ (st : EmitterState) (ns : List JSVal) (L : Nat), noEmptyMap st.events →
        noEmptyMap (onLoop st ns L).1.events) ∧
      (∀ (st : EmitterState) (ns : List JSVal) (L : Nat), noEmptyMap st.events →
        noEmptyMap (offLoop st ns L).1.events) ∧
      (∀ (σ : Type) (beh : Behavior σ) (st : EmitterState) (k d : JSVal) (s : σ),
        BehNoEmpty beh → noEmptyMap st.events →
        noEmptyMap (emit beh st k d s).state.events ∧
          noEmptyMap (emitSerial beh st k d s).state.events) ∧
      (∀ st : EmitterState, (clearListenersNoArg st).events = []) ∧
      (∀ (st : EmitterState) (k : JSVal), isEventKeyType k = true →
        ∀ s, getListeners st k = some s →
          getListeners (clearListeners st (EventNamesArg.array [k])) k = some []) := by
  refine ⟨?_, ?_, ?_, ?_, ?_⟩
  · intro st ns L h
    exact noEmptyMap_onLoop ns st L h
  · intro st ns L h
    exact noEmptyMap_offLoop ns st L h
  · intro σ beh st k d s hb h
    constructor
    · by_cases hk : isEventKeyType k = true
      · rw [emit_valid beh st k d s hk]
        refine dispatchBody_noEmpty hb _ k d s ?_
        rw [enqueueProducers_events]
        exact h
      · unfold emit
        rw [if_neg hk]
        exact h
    · by_cases hk : isEventKeyType k = true
      · rw [emitSerial_valid beh st k d s hk]
        exact dispatchBody_noEmpty hb st k d s h
      · unfold emitSerial
        rw [if_neg hk]
        exact h
  · exact clearListenersNoArg_events
  · exact clear_named_keeps_entry

/-- C2 witness: the amended statement evaluated on concrete calls. -/
theorem C2_pruned_witness :
    noEmptyMap (onLoop initState [JSVal.str "a"] 1).1.events ∧
      noEmptyMap (offLoop (onLoop initState [JSVal.str "a"] 1).1 [JSVal.str "a"] 1).1.events ∧
      noEmptyMap
        (emit inertBeh (onLoop initState [JSVal.str "a"] 1).1 (JSVal.str "a")
          (JSVal.num 0) ()).state.events ∧
      (clearListenersNoArg (onLoop initState [JSVal.str "a"] 1).1).events = [] ∧
      getListeners
          (clearListeners (onLoop initState [JSVal.str "a"] 1).1
            (EventNamesArg.array [JSVal.str "a"]))
          (JSVal.str "a") = some [] := by
  refine ⟨?_, ?_, ?_, ?_, ?_⟩
  · exact C2_pruned_except_named_clear.1 initState [JSVal.str "a"] 1 (by decide)
  · exact C2_pruned_except_named_clear.2.1 _ [JSVal.str "a"] 1 (by decide)
  · exact (C2_pruned_except_named_clear.2.2.1 Unit inertBeh _ (JSVal.str "a")
      (JSVal.num 0) () (fun _ _ _ _ h => h) (by decide)).1
  · exact C2_pruned_except_named_clear.2.2.2.1 _
  · exact C2_pruned_except_named_clear.2.2.2.2 _ (JSVal.str "a") (by decide) [1] rfl

/-- C3: the spec and the package's own documentation (README, index.d.ts)
promise a public wildcard streaming subscription `anyEvent()`, but the
`kEvents` class in src/index.js defines no such method — `emitter.anyEvent()`
is a TypeError.  The internal wildcard channel exists (the constructor seeds
the `anyProducer` entry and `enqueueProducers` feeds it pairs), but no public
method registers a producer on it, since `events` rejects every value that is
not a plain event key. -/
theorem C3_no_wildcard_stream_method :
    "anyEvent" ∉ kEventsMethods ∧ "subscribeWildcardStream" ∉ kEventsMethods ∧
      (events initState (EventNamesArg.single JSVal.undef)).2 =
        Except.error JSError.invalidEventKey ∧
      (events initState (EventNamesArg.single JSVal.undef)).1 = initState :=
  ⟨by decide, by decide, rfl, rfl⟩

/-- C4: `emitSerial(K, payload)` invokes the snapshotted per-key listeners one
at a time in insertion (snapshot) order, then the wildcard listeners, and
settles without error when every listener succeeds (first conjunct: the
invocation log is exactly the per-key list followed by the wildcard list);
if some listener `F` fails, the log stops at `F`, every not-yet-invoked
per-key listener and every wildcard listener is skipped, and the call fails
with `F`'s error (second conjunct). -/
theorem C4_emitSerial_order_and_failfast :
    (∀ (σ : Type) (beh : Behavior σ) (st : EmitterState) (k d : JSVal) (s : σ),
        isEventKeyType k = true → BehInert beh →
        emitSerial beh st k d s =
          ⟨st, s,
            (liveListeners st k).map (fun L => (L, CallArg.data d)) ++
              st.anySet.map (fun L => (L, CallArg.keyed k d)), none⟩) ∧
      (∀ (σ : Type) (beh : Behavior σ) (st : EmitterState) (k d : JSVal) (s : σ)
          (F e : Nat) (p r : List Nat), isEventKeyType k = true →
        (∀ (a : CallArg) (st2 : EmitterState) (s2 : σ),
          beh F a st2 s2 = ⟨st2, s2, some e⟩) →
        (∀ (L : Nat), L ≠ F → ∀ (a : CallArg) (st2 : EmitterState) (s2 : σ),
          beh L a st2 s2 = ⟨st2, s2, none⟩) →
        liveListeners st k = p ++ F :: r → F ∉ p →
        emitSerial beh st k d s =
          ⟨st, s, p.map (fun L => (L, CallArg.data d)) ++ [(F, CallArg.data d)],
            some (JSError.thrown e)⟩) := by
  constructor
  · intro σ beh st k d s hk hb
    rw [emitSerial_valid beh st k d s hk, dispatchBody_inert hb st k d s]
  · intro σ beh st k d s F e p r hk hF hO hsnap hFp
    rw [emitSerial_valid beh st k d s hk,
      dispatchBody_fail hF hO st k d s p r hsnap hFp]

/-- C4 witness: two listeners on key "k"; with inert listeners the log is
`[L1, L2]` followed by the (empty) wildcard pass; with `L1` failing, `L2` is
skipped and the call fails with `L1`'s error. -/
theorem C4_emitSerial_witness :
    emitSerial inertBeh (onLoop (onLoop initState [JSVal.str "k"] 1).1
          [JSVal.str "k"] 2).1 (JSVal.str "k") (JSVal.num 0) () =
        ⟨(onLoop (onLoop initState [JSVal.str "k"] 1).1 [JSVal.str "k"] 2).1, (),
          (liveListeners (onLoop (onLoop initState [JSVal.str "k"] 1).1
              [JSVal.str "k"] 2).1 (JSVal.str "k")).map
              (fun L => (L, CallArg.data (JSVal.num 0))) ++
            ((onLoop (onLoop initState [JSVal.str "k"] 1).1
              [JSVal.str "k"] 2).1.anySet).map
              (fun L => (L, CallArg.keyed (JSVal.str "k") (JSVal.num 0))), none⟩ ∧
      emitSerial (failBeh 1 7) (onLoop (onLoop initState [JSVal.str "k"] 1).1
          [JSVal.str "k"] 2).1 (JSVal.str "k") (JSVal.num 0) () =
        ⟨(onLoop (onLoop initState [JSVal.str "k"] 1).1 [JSVal.str "k"] 2).1, (),
          ([] : List Nat).map (fun L => (L, CallArg.data (JSVal.num 0))) ++
            [(1, CallArg.data (JSVal.num 0))], some (JSError.thrown 7)⟩ := by
  constructor
  · exact C4_emitSerial_order_and_failfast.1 Unit inertBeh _ (JSVal.str "k")
      (JSVal.num 0) () (by decide) (fun _ _ _ _ => rfl)
  · exact C4_emitSerial_order_and_failfast.2 Unit (failBeh 1 7) _ (JSVal.str "k")
      (JSVal.num 0) () 1 7 [] [2] (by decide) (fun a st2 s2 => rfl)
      (fun L hL a st2 s2 => by unfold failBeh; rw [if_neg hL]) (by decide)
      (by decide)

theorem invokeKeyLoop_calls_mem {σ : Type} (beh : Behavior σ) (en ed : JSVal) :
    ∀ (S : List Nat) (st : EmitterState) (s : σ),
      ∀ c ∈ (invokeKeyLoop beh en ed S st s).calls, c.1 ∈ S := by
  intro S
  induction S with
  | nil =>
    intro st s c hc
    exact absurd hc (List.not_mem_nil c)
  | cons L rest ih =>
    intro st s c hc
    by_cases hL : L ∈ liveListeners st en
    · rcases hr : beh L (CallArg.data ed) st s with ⟨st1, s1, err⟩
      cases err with
      | some e =>
        rw [invokeKeyLoop_cons_err beh en ed rest hL hr] at hc
        obtain rfl : c = (L, CallArg.data ed) := List.mem_singleton.1 hc
        exact List.mem_cons_self _ _
      | none =>
        rw [invokeKeyLoop_cons_ok beh en ed rest hL hr] at hc
        rcases List.mem_cons.1 hc with rfl | hc2
        · exact List.mem_cons_self _ _
        · exact List.mem_cons_of_mem _ (ih st1 s1 c hc2)
    · rw [invokeKeyLoop_cons_skip beh en ed rest s hL] at hc
      exact List.mem_cons_of_mem _ (ih st s c hc)

theorem anySetRemoverBeh_eq_self (A B : Nat) {L : Nat} (a : CallArg)
    (st : EmitterState) (s : Unit) (hL : L ≠ A) :
    anySetRemoverBeh A B L a st s = ⟨st, s, none⟩ := by
  unfold anySetRemoverBeh
  rw [if_neg hL]

theorem anySetRemoverBeh_eq_hit (A B : Nat) (a : CallArg) (st : EmitterState)
    (s : Unit) : anySetRemoverBeh A B A a st s = ⟨offAny st B, s, none⟩ := by
  unfold anySetRemoverBeh
  rw [if_pos rfl]

theorem anyRemoverKeyLoop_preserve (k d : JSVal) (A B : Nat) :
    ∀ (S : List Nat) (st : EmitterState) (s : Unit), B ∉ st.anySet →
      B ∉ (invokeKeyLoop (anySetRemoverBeh A B) k d S st s).state.anySet := by
  intro S
  induction S with
  | nil =>
    intro st s h
    exact h
  | cons L rest ih =>
    intro st s h
    by_cases hL : L ∈ liveListeners st k
    · by_cases hLA : L = A
      · subst hLA
        rw [invokeKeyLoop_cons_ok _ k d rest hL (anySetRemoverBeh_eq_hit L B _ st s)]
        exact ih _ s (not_mem_setDelete _ _)
      · rw [invokeKeyLoop_cons_ok _ k d rest hL
          (anySetRemoverBeh_eq_self A B _ st s hLA)]
        exact ih st s h
    · rw [invokeKeyLoop_cons_skip _ k d rest s hL]
      exact ih st s h

theorem anyRemoverKeyLoop_main (k d : JSVal) (A B : Nat) :
    ∀ (p rest : List Nat) (st : EmitterState) (s : Unit),
      A ∈ liveListeners st k →
      B ∉ (invokeKeyLoop (anySetRemoverBeh A B) k d (p ++ A :: rest) st s).state.anySet := by
  intro p
  induction p with
  | nil =>
    intro rest st s hA
    rw [List.nil_append,
      invokeKeyLoop_cons_ok _ k d rest hA (anySetRemoverBeh_eq_hit A B _ st s)]
    exact anyRemoverKeyLoop_preserve k d A B rest _ s (not_mem_setDelete _ _)
  | cons x p ih =>
    intro rest st s hA
    rw [List.cons_append]
    by_cases hxlive : x ∈ liveListeners st k
    · by_cases hxA : x = A
      · subst hxA
        rw [invokeKeyLoop_cons_ok _ k d (p ++ x :: rest) hxlive
          (anySetRemoverBeh_eq_hit x B _ st s)]
        exact ih rest _ s hA
      · rw [invokeKeyLoop_cons_ok _ k d (p ++ A :: rest) hxlive
          (anySetRemoverBeh_eq_self A B _ st s hxA)]
        exact ih rest st s hA
    · rw [invokeKeyLoop_cons_skip _ k d (p ++ A :: rest) s hxlive]
      exact ih rest st s hA

theorem anyRemoverAnyLoop_absent (k d : JSVal) (A B : Nat) :
    ∀ (S : List Nat) (st : EmitterState) (s : Unit), B ∉ st.anySet →
      ∀ c ∈ (invokeAnyLoop (anySetRemoverBeh A B) k d S st s).calls, c.1 ≠ B := by
  intro S
  induction S with
  | nil =>
    intro st s _ c hc
    exact absurd hc (List.not_mem_nil c)
  | cons L rest ih =>
    intro st s habs
    by_cases hL : L ∈ st.anySet
    · have hLB : L ≠ B := fun h => habs (h ▸ hL)
      by_cases hLA : L = A
      · subst hLA
        rw [invokeAnyLoop_cons_ok _ k d rest hL (anySetRemoverBeh_eq_hit L B _ st s)]
        intro c hc
        rcases List.mem_cons.1 hc with rfl | hc2
        · exact hLB
        · exact ih _ s (not_mem_setDelete _ _) c hc2
      · rw [invokeAnyLoop_cons_ok _ k d rest hL
          (anySetRemoverBeh_eq_self A B _ st s hLA)]
        intro c hc
        rcases List.mem_cons.1 hc with rfl | hc2
        · exact hLB
        · exact ih st s habs c hc2
    · rw [invokeAnyLoop_cons_skip _ k d rest s hL]
      exact ih st s habs

/-- C5: during a single `emit(K, payload)`, every snapshotted listener is
re-checked against the live registry just before its own invocation.  First
conjunct: a per-key listener `B` that an earlier-scheduled listener `A`
removes from the live set for `K` mid-emission never appears in the
invocation log, even though it was in the call-time snapshot.  Second
conjunct: the same for a wildcard listener `B` that a per-key listener `A`
removes from the wildcard set mid-emission. -/
theorem C5_removed_listener_skipped :
    (∀ (st : EmitterState) (k d : JSVal) (A B : Nat) (p q r : List Nat),
        isEventKeyType k = true → keysNodup st.events → A ≠ B →
        liveListeners st k = p ++ A :: (q ++ B :: r) → B ∉ p → B ∉ st.anySet →
        ∀ c ∈ (emit (removerBeh k A B) st k d ()).calls, c.1 ≠ B) ∧
      (∀ (st : EmitterState) (k d : JSVal) (A B : Nat) (p rest : List Nat),
        isEventKeyType k = true → liveListeners st k = p ++ A :: rest →
        B ∉ liveListeners st k →
        ∀ c ∈ (emit (anySetRemoverBeh A B) st k d ()).calls, c.1 ≠ B) := by
  constructor
  · intro st k d A B p q r hk hn hAB hsnap hBp hBany
    rw [emit_valid _ st k d () hk]
    have hev : (enqueueProducers st k d).events = st.events :=
      enqueueProducers_events st k d
    have hany : (enqueueProducers st k d).anySet = st.anySet :=
      enqueueProducers_anySet st k d
    have hlive0 : liveListeners (enqueueProducers st k d) k = p ++ A :: (q ++ B :: r) := by
      unfold liveListeners getListeners
      rw [hev]
      exact hsnap
    have hn0 : keysNodup (enqueueProducers st k d).events := by
      rw [hev]
      exact hn
    have hA0 : A ∈ liveListeners (enqueueProducers st k d) k := by
      rw [hlive0]
      exact List.mem_append_right _ (List.mem_cons_self _ _)
    simp only [dispatchBody]
    rw [hlive0]
    have hmain := removerKeyLoop_main k d A B hk hAB p (q ++ B :: r)
      (enqueueProducers st k d) () hn0 hBp hA0
    rcases hd1 : invokeKeyLoop (removerBeh k A B) k d (p ++ A :: (q ++ B :: r))
        (enqueueProducers st k d) () with ⟨st1, s1, calls1, err1⟩
    have hcalls1 : ∀ c ∈ calls1, c.1 ≠ B := by
      rw [hd1] at hmain
      exact hmain
    have hanyB : B ∉ st1.anySet := by
      have hframe := invokeKeyLoop_anyFrame (removerBeh_anyFrame k A B) k d
        (p ++ A :: (q ++ B :: r)) (enqueueProducers st k d) ()
      rw [hd1] at hframe
      rw [hframe, hany]
      exact hBany
    cases err1 with
    | some e =>
      dsimp only
      exact hcalls1
    | none =>
      dsimp only
      intro c hc
      rcases List.mem_append.1 hc with h | h
      · exact hcalls1 c h
      · exact removerAnyLoop_absent k d A B (enqueueProducers st k d).anySet st1 s1
          hanyB c h
  · intro st k d A B p rest0 hk hsnap hBlive
    rw [emit_valid _ st k d () hk]
    have hev : (enqueueProducers st k d).events = st.events :=
      enqueueProducers_events st k d
    have hlive0 : liveListeners (enqueueProducers st k d) k = p ++ A :: rest0 := by
      unfold liveListeners getListeners
      rw [hev]
      exact hsnap
    have hA0 : A ∈ liveListeners (enqueueProducers st k d) k := by
      rw [hlive0]
      exact List.mem_append_right _ (List.mem_cons_self _ _)
    have hBsnap : B ∉ p ++ A :: rest0 := by
      rw [← hlive0]
      unfold liveListeners getListeners
      rw [hev]
      exact hBlive
    simp only [dispatchBody]
    rw [hlive0]
    rcases hd1 : invokeKeyLoop (anySetRemoverBeh A B) k d (p ++ A :: rest0)
        (enqueueProducers st k d) () with ⟨st1, s1, calls1, err1⟩
    have hcalls1 : ∀ c ∈ calls1, c.1 ≠ B := by
      have hsub := invokeKeyLoop_calls_mem (anySetRemoverBeh A B) k d
        (p ++ A :: rest0) (enqueueProducers st k d) ()
      rw [hd1] at hsub
      intro c hc hcB
      exact hBsnap (hcB ▸ hsub c hc)
    have hanyB : B ∉ st1.anySet := by
      have hm := anyRemoverKeyLoop_main k d A B p rest0 (enqueueProducers st k d) () hA0
      rw [hd1] at hm
      exact hm
    cases err1 with
    | some e =>
      dsimp only
      exact hcalls1
    | none =>
      dsimp only
      intro c hc
      rcases List.mem_append.1 hc with h | h
      · exact hcalls1 c h
      · exact anyRemoverAnyLoop_absent k d A B (enqueueProducers st k d).anySet st1 s1
          hanyB c h


/-- C5 witness: listeners 1 and 2 on "k"; listener 1 removes listener 2
mid-emission, so the pair for listener 2 never appears in the log. -/
theorem C5_removed_listener_witness :
    (2, CallArg.data (JSVal.num 0)) ∉
      (emit (removerBeh (JSVal.str "k") 1 2)
        (onLoop (onLoop initState [JSVal.str "k"] 1).1 [JSVal.str "k"] 2).1
        (JSVal.str "k") (JSVal.num 0) ()).calls :=
  fun h =>
    C5_removed_listener_skipped.1
      (onLoop (onLoop initState [JSVal.str "k"] 1).1 [JSVal.str "k"] 2).1
      (JSVal.str "k") (JSVal.num 0) 1 2 [] [] [] (by decide) (by decide)
      (by decide) (by decide) (by decide) (by decide)
      (2, CallArg.data (JSVal.num 0)) h rfl

/-- C6: registering the same listener reference twice for the same key via
`on` leaves the registry in exactly the state of registering it once (set
semantics), and an emission of that key then invokes the listener exactly
once, not once per registration. -/
theorem C6_idempotent_subscribe :
    ∀ (st : EmitterState) (k d : JSVal) (L : Nat),
      isEventKeyType k = true → (liveListeners st k).Nodup → L ∉ st.anySet →
      (on' (on' st (EventNamesArg.single k) L).1 (EventNamesArg.single k) L).1 =
          (on' st (EventNamesArg.single k) L).1 ∧
        ((emit inertBeh (on' st (EventNamesArg.single k) L).1 k d ()).calls.filter
            (fun c => c.1 = L)).length = 1 := by
  intro st k d L hk hnd hany
  have hst1 : (on' st (EventNamesArg.single k) L).1 = addListener st k L :=
    on_single_state st k L hk
  constructor
  · rw [hst1, on_single_state _ k L hk]
    exact addListener_idem st k L
  · rw [hst1]
    have hbi : BehInert inertBeh := fun _ _ _ _ => rfl
    rw [emit_valid inertBeh (addListener st k L) k d () hk,
      dispatchBody_inert hbi _ k d ()]
    have hlive : liveListeners (enqueueProducers (addListener st k L) k d) k =
        setAdd (liveListeners st k) L := by
      have h2 := liveListeners_addListener st k L
      unfold liveListeners getListeners at h2 ⊢
      rw [enqueueProducers_events]
      exact h2
    have hanyeq : (enqueueProducers (addListener st k L) k d).anySet = st.anySet := by
      rw [enqueueProducers_anySet]
      rfl
    dsimp only
    rw [List.filter_append, List.length_append, hlive, hanyeq,
      length_filter_fst_map_pair, length_filter_fst_map_pair,
      List.count_eq_one_of_mem (nodup_setAdd L hnd) (mem_setAdd_self _ _),
      List.count_eq_zero.2 hany]

/-- C6 witness: subscribing listener 1 to "x" twice from a fresh emitter. -/
theorem C6_idempotent_witness :
    (on' (on' initState (EventNamesArg.single (JSVal.str "x")) 1).1
          (EventNamesArg.single (JSVal.str "x")) 1).1 =
        (on' initState (EventNamesArg.single (JSVal.str "x")) 1).1 ∧
      ((emit inertBeh (on' initState (EventNamesArg.single (JSVal.str "x")) 1).1
          (JSVal.str "x") (JSVal.num 5) ()).calls.filter
          (fun c => c.1 = 1)).length = 1 :=
  C6_idempotent_subscribe initState (JSVal.str "x") (JSVal.num 5) 1 (by decide)
    (by decide) (by decide)

/-- C7: the unsubscribe handle returned by `on(eventKeys, L)` removes `L`
from every key it captured; invoking it again is a no-op (the state after the
second invocation is identical to the state after the first); and
unsubscribing a listener that was never present (in a registry satisfying the
pruned-entries invariant) is a no-op, not an error. -/
theorem C7_handle_idempotent :
    ∀ (st : EmitterState) (h : Handle),
      (∀ k ∈ h.names, isEventKeyType k = true) → keysNodup st.events →
      (∀ k ∈ h.names, h.listener ∉ liveListeners (runHandle st h).1 k) ∧
        runHandle (runHandle st h).1 h = runHandle st h ∧
        (noEmptyMap st.events →
          (∀ k ∈ h.names, h.listener ∉ liveListeners st k) →
          runHandle st h = (st, none)) := by
  intro st h hv hn
  refine ⟨?_, ?_, ?_⟩
  · intro k hk
    exact not_mem_live_of_stableAt (offLoop_removes h.names st h.listener k hk hv hn)
  · exact offLoop_idem h.names st h.listener hn
  · intro hne habs
    refine offLoop_noop h.names st h.listener hv ?_
    intro k hk s hs
    constructor
    · have h2 := habs k hk
      unfold liveListeners getListeners at h2
      rw [hs] at h2
      simpa using h2
    · exact hne (k, s) (mapGet_mem hs)

/-- C7 witness: the handle from `on(["x","y"], 1)` on a fresh emitter. -/
theorem C7_handle_witness :
    1 ∉ liveListeners
        (runHandle (on' initState (EventNamesArg.array [JSVal.str "x", JSVal.str "y"]) 1).1
          { names := [JSVal.str "x", JSVal.str "y"], listener := 1 }).1
        (JSVal.str "x") ∧
      runHandle
          (runHandle (on' initState (EventNamesArg.array [JSVal.str "x", JSVal.str "y"]) 1).1
            { names := [JSVal.str "x", JSVal.str "y"], listener := 1 }).1
          { names := [JSVal.str "x", JSVal.str "y"], listener := 1 } =
        runHandle (on' initState (EventNamesArg.array [JSVal.str "x", JSVal.str "y"]) 1).1
          { names := [JSVal.str "x", JSVal.str "y"], listener := 1 } ∧
      runHandle initState { names := [JSVal.str "x", JSVal.str "y"], listener := 1 } =
        (initState, none) := by
  refine ⟨?_, ?_, ?_⟩
  · exact (C7_handle_idempotent
      (on' initState (EventNamesArg.array [JSVal.str "x", JSVal.str "y"]) 1).1
      { names := [JSVal.str "x", JSVal.str "y"], listener := 1 } (by decide)
      (by decide)).1 (JSVal.str "x") (by decide)
  · exact (C7_handle_idempotent
      (on' initState (EventNamesArg.array [JSVal.str "x", JSVal.str "y"]) 1).1
      { names := [JSVal.str "x", JSVal.str "y"], listener := 1 } (by decide)
      (by decide)).2.1
  · exact (C7_handle_idempotent initState
      { names := [JSVal.str "x", JSVal.str "y"], listener := 1 } (by decide)
      (by decide)).2.2 (by decide) (by decide)

/-- C8: a sequence handle from `events`: (i) buffered payloads are dequeued
oldest first in emission order with `done = false`; (ii) after `return()` has
been called, every subsequent `next()` resolves `done = true` without further
state change; (iii) `return()` removes the producer from every Stream
Registry entry it was added to and prunes entries whose producer set became
empty. -/
theorem C8_stream_handle :
    (∀ d1 d2 : JSVal,
        let hand : IterHandle := { names := [JSVal.str "k"], pid := 1 }
        let e2 := emit inertBeh
          (emit inertBeh (events initState (EventNamesArg.single (JSVal.str "k"))).1
            (JSVal.str "k") d1 ()).state (JSVal.str "k") d2 ()
        let n1 := iterNext e2.state hand
        let n2 := iterNext n1.1 hand
        (events initState (EventNamesArg.single (JSVal.str "k"))).2 =
            Except.ok hand ∧
          n1.2 = NextOutcome.ready false (some (Item.single d1)) ∧
          n2.2 = NextOutcome.ready false (some (Item.single d2))) ∧
      (∀ (st : EmitterState) (h : IterHandle) (c : Cell),
        mapGet st.cells h.pid = some c →
        iterNext (iterReturn st h) h = (iterReturn st h, NextOutcome.ready true none)) ∧
      (∀ (st : EmitterState) (h : IterHandle) (k : JSVal), k ∈ h.names →
        keysNodup st.producers →
        h.pid ∉ (mapGet (iterReturn st h).producers (prodKeyOf k)).getD [] ∧
          mapGet (iterReturn st h).producers (prodKeyOf k) ≠ some []) := by
  refine ⟨?_, ?_, ?_⟩
  · intro d1 d2
    exact ⟨rfl, rfl, rfl⟩
  · exact iterNext_after_return
  · intro st h k hk hn
    exact stableAt_spec (iterReturn_removes st h k hk hn)

/-- C8 witness: a stream handle on key "k" over a fresh emitter, with two
buffered emissions, then terminated. -/
theorem C8_stream_witness :
    ((events initState (EventNamesArg.single (JSVal.str "k"))).2 =
          Except.ok ({ names := [JSVal.str "k"], pid := 1 } : IterHandle) ∧
        (iterNext
            (emit inertBeh
              (emit inertBeh (events initState (EventNamesArg.single (JSVal.str "k"))).1
                (JSVal.str "k") (JSVal.num 1) ()).state (JSVal.str "k") (JSVal.num 2)
              ()).state { names := [JSVal.str "k"], pid := 1 }).2 =
          NextOutcome.ready false (some (Item.single (JSVal.num 1))) ∧
        (iterNext
            (iterNext
              (emit inertBeh
                (emit inertBeh (events initState (EventNamesArg.single (JSVal.str "k"))).1
                  (JSVal.str "k") (JSVal.num 1) ()).state (JSVal.str "k")
                (JSVal.num 2) ()).state { names := [JSVal.str "k"], pid := 1 }).1
            { names := [JSVal.str "k"], pid := 1 }).2 =
          NextOutcome.ready false (some (Item.single (JSVal.num 2)))) ∧
      iterNext
          (iterReturn (events initState (EventNamesArg.single (JSVal.str "k"))).1
            { names := [JSVal.str "k"], pid := 1 })
          { names := [JSVal.str "k"], pid := 1 } =
        (iterReturn (events initState (EventNamesArg.single (JSVal.str "k"))).1
          { names := [JSVal.str "k"], pid := 1 }, NextOutcome.ready true none) ∧
      (1 ∉ (mapGet
          (iterReturn (events initState (EventNamesArg.single (JSVal.str "k"))).1
            { names := [JSVal.str "k"], pid := 1 }).producers
          (prodKeyOf (JSVal.str "k"))).getD [] ∧
        mapGet
            (iterReturn (events initState (EventNamesArg.single (JSVal.str "k"))).1
              { names := [JSVal.str "k"], pid := 1 }).producers
            (prodKeyOf (JSVal.str "k")) ≠ some []) := by
  refine ⟨?_, ?_, ?_⟩
  · exact C8_stream_handle.1 (JSVal.num 1) (JSVal.num 2)
  · exact C8_stream_handle.2.1
      (events initState (EventNamesArg.single (JSVal.str "k"))).1
      { names := [JSVal.str "k"], pid := 1 }
      { queue := some [], isFinished := false } rfl
  · exact C8_stream_handle.2.2
      (events initState (EventNamesArg.single (JSVal.str "k"))).1
      { names := [JSVal.str "k"], pid := 1 } (JSVal.str "k") (by decide) (by decide)

/-- C9: `once(["x","y"])` resolves with the payload of whichever key is
emitted first, and upon that first resolution the underlying listener is
removed from both keys, so a later emission of the other key invokes nothing
and leaves the already-resolved value unchanged. -/
theorem C9_once_first_emission :
    ∀ p1 p2 : JSVal,
      (once initState (EventNamesArg.array [JSVal.str "x", JSVal.str "y"]) 1).2 =
          Except.ok { names := [JSVal.str "x", JSVal.str "y"], listener := 1 } ∧
        (let beh := onceBeh [JSVal.str "x", JSVal.str "y"] 1
         let e1 := emit beh
           (once initState (EventNamesArg.array [JSVal.str "x", JSVal.str "y"]) 1).1
           (JSVal.str "x") p1 none
         let e2 := emit beh e1.state (JSVal.str "y") p2 e1.ext
         e1.ext = some p1 ∧ e1.calls = [(1, CallArg.data p1)] ∧
           getListeners e1.state (JSVal.str "x") = none ∧
           getListeners e1.state (JSVal.str "y") = none ∧
           e2.calls = [] ∧ e2.ext = some p1) := by
  intro p1 p2
  exact ⟨rfl, rfl, rfl, rfl, rfl, rfl, rfl⟩

/-- C10: `emitSerial` never feeds the Stream Multiplexer — it leaves the
Stream Registry and every producer buffer untouched (first conjunct), whereas
`emit` feeds the producers before dispatching: its final buffers are exactly
the post-`enqueueProducers` buffers (second conjunct), and `enqueueProducers`
appends the raw payload to every producer registered under the key and the
`(eventKey, payload)` pair to every wildcard producer (last two conjuncts). -/
theorem C10_emitSerial_frame :
    (∀ (σ : Type) (beh : Behavior σ) (st : EmitterState) (k d : JSVal) (s : σ),
        BehStreamFrame beh →
        (emitSerial beh st k d s).state.producers = st.producers ∧
          (emitSerial beh st k d s).state.cells = st.cells) ∧
      (∀ (σ : Type) (beh : Behavior σ) (st : EmitterState) (k d : JSVal) (s : σ),
        isEventKeyType k = true → BehStreamFrame beh →
        (emit beh st k d s).state.cells = (enqueueProducers st k d).cells ∧
          (emit beh st k d s).state.producers = st.producers) ∧
      (∀ (st : EmitterState) (k d : JSVal) (pid : Nat) (q : List Item)
          (fin : Bool) (pids : List Nat),
        mapGet st.producers (ProdKey.key k) = some pids → pid ∈ pids →
        pids.Nodup →
        (∀ apids, mapGet st.producers ProdKey.anyProducer = some apids →
          pid ∉ apids) →
        mapGet st.cells pid = some { queue := some q, isFinished := fin } →
        mapGet (enqueueProducers st k d).cells pid =
          some { queue := some (q ++ [Item.single d]), isFinished := fin }) ∧
      (∀ (st : EmitterState) (k d : JSVal) (pid : Nat) (q : List Item)
          (fin : Bool) (apids : List Nat),
        mapGet st.producers ProdKey.anyProducer = some apids → pid ∈ apids →
        apids.Nodup →
        (∀ pids, mapGet st.producers (ProdKey.key k) = some pids → pid ∉ pids) →
        mapGet st.cells pid = some { queue := some q, isFinished := fin } →
        mapGet (enqueueProducers st k d).cells pid =
          some { queue := some (q ++ [Item.pair k d]), isFinished := fin }) := by
  refine ⟨?_, ?_, enqueueProducers_key_buffer, enqueueProducers_any_buffer⟩
  · intro σ beh st k d s hb
    by_cases hk : isEventKeyType k = true
    · rw [emitSerial_valid beh st k d s hk]
      exact dispatchBody_streamFrame hb st k d s
    · unfold emitSerial
      rw [if_neg hk]
      exact ⟨rfl, rfl⟩
  · intro σ beh st k d s hk hb
    rw [emit_valid beh st k d s hk]
    refine ⟨(dispatchBody_streamFrame hb _ k d s).2, ?_⟩
    rw [(dispatchBody_streamFrame hb _ k d s).1, enqueueProducers_producers]

/-- C10 witness: a per-key producer state and a wildcard producer state. -/
theorem C10_emitSerial_frame_witness :
    ((emitSerial inertBeh
          { events := [], anySet := [],
            producers := [(ProdKey.key (JSVal.str "k"), [1])],
            cells := [(1, { queue := some [], isFinished := false })] }
          (JSVal.str "k") (JSVal.num 3) ()).state.producers =
        [(ProdKey.key (JSVal.str "k"), [1])] ∧
      (emitSerial inertBeh
          { events := [], anySet := [],
            producers := [(ProdKey.key (JSVal.str "k"), [1])],
            cells := [(1, { queue := some [], isFinished := false })] }
          (JSVal.str "k") (JSVal.num 3) ()).state.cells =
        [(1, { queue := some [], isFinished := false })]) ∧
      mapGet
          (enqueueProducers
            { events := [], anySet := [],
              producers := [(ProdKey.key (JSVal.str "k"), [1])],
              cells := [(1, { queue := some [], isFinished := false })] }
            (JSVal.str "k") (JSVal.num 3)).cells 1 =
        some (Cell.mk (some ([] ++ [Item.single (JSVal.num 3)])) false) ∧
      mapGet
          (enqueueProducers
            { events := [], anySet := [],
              producers := [(ProdKey.anyProducer, [2])],
              cells := [(2, { queue := some [], isFinished := false })] }
            (JSVal.str "k") (JSVal.num 3)).cells 2 =
        some (Cell.mk (some ([] ++ [Item.pair (JSVal.str "k") (JSVal.num 3)])) false) := by
  refine ⟨?_, ?_, ?_⟩
  · exact C10_emitSerial_frame.1 Unit inertBeh _ (JSVal.str "k") (JSVal.num 3) ()
      (fun _ _ _ _ => ⟨rfl, rfl⟩)
  · refine C10_emitSerial_frame.2.2.1 _ (JSVal.str "k") (JSVal.num 3) 1 [] false
      [1] rfl (by decide) (by decide) ?_ rfl
    intro apids hap
    exact Option.noConfusion hap
  · refine C10_emitSerial_frame.2.2.2 _ (JSVal.str "k") (JSVal.num 3) 2 [] false
      [2] rfl (by decide) (by decide) ?_ rfl
    intro pids hap
    exact Option.noConfusion hap

end KEvents
